import Mathlib

/-!
# Verification of the PondEyes radar tracking core

A shallow embedding of the PondEyes repository (frame codec, serial resync
loop, track lifecycle engine, replay seek, index scan), with theorems
settling the specification claims about it.

Byte buffers are modelled as `List Nat` (each element a byte value), times as
`ℚ` (the wall clock and the monotonic clock of the Python code are modelled as
a single rational-valued time source), and the floating-point kinematics as
real arithmetic.
-/

/-! ## Frame codec (serial_reader.py / mqtt_client.py) -/

/-- 4-byte frame header magic `AA FF 03 00` (`RadarSerial.HDR`, `RadarMQTT.HDR`). -/
def HDR : List Nat := [0xAA, 0xFF, 0x03, 0x00]

/-- 2-byte frame footer magic `55 CC` (`RadarSerial.FTR`, `RadarMQTT.FTR`). -/
def FTR : List Nat := [0x55, 0xCC]

/-- Full frame length in bytes (`FLEN = 30`). -/
def FLEN : Nat := 30

/-- `RadarSerial._s15` / `RadarMQTT._s15`: LD2450 signed-15-bit word decode.
The top bit of the 16-bit word is a polarity flag (set = positive), the low
15 bits are the magnitude:
`return (u & 0x7FFF) if (u & 0x8000) else -(u & 0x7FFF)`. -/
def s15 (u : Nat) : Int :=
  if u &&& 0x8000 ≠ 0 then ((u &&& 0x7FFF : Nat) : Int) else -((u &&& 0x7FFF : Nat) : Int)

/-- Little-endian 16-bit word from two bytes (`int.from_bytes(_, "little")`). -/
def leWord (b0 b1 : Nat) : Nat := b0 + 256 * b1

/-- A raw observation `(slot, x_mm, y_mm)`. -/
abbrev Obs := Nat × Int × Int

/-- `RadarSerial._parse`: for target index `i ∈ {0,1,2}` decode the x and y
words at offset `4 + 8 i` of the 30-byte frame; emit `(i+1, x, y)` unless the
decoded `x` and `y` are both zero (`if x or y`). -/
def parseSerial (buf : List Nat) : List Obs :=
  (List.range 3).filterMap (fun i =>
    let off := 4 + i * 8
    let x := s15 (leWord (buf.getD off 0) (buf.getD (off + 1) 0))
    let y := s15 (leWord (buf.getD (off + 2) 0) (buf.getD (off + 3) 0))
    if x ≠ 0 ∨ y ≠ 0 then some (i + 1, x, y) else none)

/-- `RadarMQTT._parse`: for target index `i ∈ {0,1,2}` take the 4-byte chunk
`b[4 + i*8 : 8 + i*8]`; if any of those 4 bytes is nonzero (`if any(chunk)`),
decode `x` from `chunk[:2]` and `y` from `chunk[2:]` and emit `(i+1, x, y)`. -/
def parseMqtt (b : List Nat) : List Obs :=
  (List.range 3).filterMap (fun i =>
    let chunk := (b.drop (4 + i * 8)).take 4
    if chunk.any (fun c => c ≠ 0) then
      some (i + 1, s15 (leWord (chunk.getD 0 0) (chunk.getD 1 0)),
                   s15 (leWord (chunk.getD 2 0) (chunk.getD 3 0)))
    else none)

/-- A structurally valid 30-byte frame: full length, header magic at the
start, footer magic at the end (the check performed by `RadarMQTT._on_msg`
and by the serial resync loop). -/
def ValidFrame (f : List Nat) : Prop :=
  f.length = 30 ∧ f.take 4 = HDR ∧ f.drop 28 = FTR

instance : DecidablePred ValidFrame := fun f => by unfold ValidFrame; infer_instance

/-- The 8-byte target block of index `i` (`buf[4 + 8 i : 12 + 8 i]`). -/
def targetBlock (f : List Nat) (i : Nat) : List Nat := (f.drop (4 + i * 8)).take 8

/-- Target block `i` has a nonzero magnitude in its x word or its y word
(low 15 bits of either little-endian word nonzero).  This is the condition
under which both bindings emit an observation for the block. -/
def liveBlock (f : List Nat) (i : Nat) : Prop :=
  leWord (f.getD (4 + i * 8) 0) (f.getD (4 + i * 8 + 1) 0) &&& 0x7FFF ≠ 0 ∨
  leWord (f.getD (4 + i * 8 + 2) 0) (f.getD (4 + i * 8 + 3) 0) &&& 0x7FFF ≠ 0

instance (f : List Nat) : DecidablePred (liveBlock f) := fun i => by
  unfold liveBlock; infer_instance

/-! Basic facts about the word decoder. -/

theorem s15_natAbs (u : Nat) : (s15 u).natAbs = u &&& 0x7FFF := by
  unfold s15; split <;> simp

theorem s15_bounds (u : Nat) : -32767 ≤ s15 u ∧ s15 u ≤ 32767 := by
  have h : u &&& 0x7FFF ≤ 0x7FFF := Nat.and_le_right
  unfold s15; split
  · constructor
    · exact le_trans (by norm_num) (Int.ofNat_nonneg _)
    · exact_mod_cast h
  · constructor
    · simp only [neg_le_neg_iff]
      exact_mod_cast h
    · exact le_trans (neg_nonpos_of_nonneg (Int.ofNat_nonneg _)) (by norm_num)

theorem s15_ne_zero_iff (u : Nat) : s15 u ≠ 0 ↔ u &&& 0x7FFF ≠ 0 := by
  unfold s15; split <;> simp [Int.ofNat_eq_zero]

/-- The x word of target block `i` as read by both parsers. -/
def xw (f : List Nat) (i : Nat) : Nat :=
  leWord (f.getD (4 + i * 8) 0) (f.getD (4 + i * 8 + 1) 0)

/-- The y word of target block `i` as read by both parsers. -/
def yw (f : List Nat) (i : Nat) : Nat :=
  leWord (f.getD (4 + i * 8 + 2) 0) (f.getD (4 + i * 8 + 3) 0)

theorem getD_drop (l : List Nat) (n m d : Nat) :
    (l.drop n).getD m d = l.getD (n + m) d := by
  induction n generalizing l with
  | zero => simp
  | succ k ih =>
    cases l with
    | nil => simp [List.getD]
    | cons a t =>
      simp only [List.drop_succ_cons]
      rw [ih]
      simp [List.getD, Nat.succ_add]

theorem getD_take (l : List Nat) (n m d : Nat) (h : m < n) :
    (l.take n).getD m d = l.getD m d := by
  induction l generalizing n m with
  | nil => simp
  | cons a t ih =>
    cases n with
    | zero => omega
    | succ k =>
      cases m with
      | zero => simp [List.getD]
      | succ j =>
        simp only [List.take_succ_cons]
        simpa [List.getD] using ih k j (by omega)

theorem getD_drop_take (l : List Nat) (k n m d : Nat) (h : m < k) :
    ((l.drop n).take k).getD m d = l.getD (n + m) d := by
  rw [getD_take _ _ _ _ h, getD_drop]

theorem parseSerial_eq (f : List Nat) :
    parseSerial f = (List.range 3).filterMap (fun i =>
      if s15 (xw f i) ≠ 0 ∨ s15 (yw f i) ≠ 0 then
        some (i + 1, s15 (xw f i), s15 (yw f i)) else none) := rfl

theorem parseMqtt_eq (f : List Nat) :
    parseMqtt f = (List.range 3).filterMap (fun i =>
      if ((f.drop (4 + i * 8)).take 4).any (fun c => c ≠ 0) then
        some (i + 1, s15 (xw f i), s15 (yw f i)) else none) := by
  unfold parseMqtt
  apply List.filterMap_congr
  intro i _
  simp only [xw, yw]
  rw [getD_drop_take _ _ _ _ _ (by norm_num : (0:Nat) < 4),
      getD_drop_take _ _ _ _ _ (by norm_num : (1:Nat) < 4),
      getD_drop_take _ _ _ _ _ (by norm_num : (2:Nat) < 4),
      getD_drop_take _ _ _ _ _ (by norm_num : (3:Nat) < 4)]
  simp

theorem leWord_ne_zero (b0 b1 : Nat) (h : leWord b0 b1 ≠ 0) : b0 ≠ 0 ∨ b1 ≠ 0 := by
  unfold leWord at h; omega

theorem and_ne_zero_of (u m : Nat) (h : u &&& m ≠ 0) : u ≠ 0 := by
  intro hu; subst hu; simp at h

theorem parseSerial_mem (f : List Nat) (o : Obs) :
    o ∈ parseSerial f ↔ ∃ i, i < 3 ∧ (s15 (xw f i) ≠ 0 ∨ s15 (yw f i) ≠ 0) ∧
      o = (i + 1, s15 (xw f i), s15 (yw f i)) := by
  rw [parseSerial_eq]
  simp only [List.mem_filterMap, List.mem_range]
  constructor
  · rintro ⟨i, hi, hsome⟩
    split at hsome
    · exact ⟨i, hi, by assumption, by injection hsome with h; exact h.symm⟩
    · exact absurd hsome (by simp)
  · rintro ⟨i, hi, hc, rfl⟩
    exact ⟨i, hi, by rw [if_pos hc]⟩

theorem parseMqtt_mem (f : List Nat) (o : Obs) :
    o ∈ parseMqtt f ↔ ∃ i, i < 3 ∧
      (((f.drop (4 + i * 8)).take 4).any (fun c => c ≠ 0)) ∧
      o = (i + 1, s15 (xw f i), s15 (yw f i)) := by
  rw [parseMqtt_eq]
  simp only [List.mem_filterMap, List.mem_range]
  constructor
  · rintro ⟨i, hi, hsome⟩
    split at hsome
    · exact ⟨i, hi, by assumption, by injection hsome with h; exact h.symm⟩
    · exact absurd hsome (by simp)
  · rintro ⟨i, hi, hc, rfl⟩
    exact ⟨i, hi, by rw [if_pos hc]⟩

theorem parseSerial_len_le (f : List Nat) : (parseSerial f).length ≤ 3 := by
  have := List.length_filterMap_le (fun i =>
      if s15 (xw f i) ≠ 0 ∨ s15 (yw f i) ≠ 0 then
        some (i + 1, s15 (xw f i), s15 (yw f i)) else (none : Option Obs))
    (List.range 3)
  rw [parseSerial_eq]
  simpa using this

theorem parseMqtt_len_le (f : List Nat) : (parseMqtt f).length ≤ 3 := by
  have := List.length_filterMap_le (fun i =>
      if ((f.drop (4 + i * 8)).take 4).any (fun c => c ≠ 0) then
        some (i + 1, s15 (xw f i), s15 (yw f i)) else (none : Option Obs))
    (List.range 3)
  rw [parseMqtt_eq]
  simpa using this

/-- A live block makes the MQTT emptiness test (`any(chunk)`) fire. -/
theorem liveBlock_chunk_any (f : List Nat) (i : Nat) (hlen : f.length = 30)
    (hi : i < 3) (hl : liveBlock f i) :
    ((f.drop (4 + i * 8)).take 4).any (fun c => c ≠ 0) := by
  have hchunklen : ((f.drop (4 + i * 8)).take 4).length = 4 := by
    simp only [List.length_take, List.length_drop, hlen]
    omega
  rw [List.any_eq_true]
  rcases hl with hx | hy
  · have hxw : xw f i ≠ 0 := and_ne_zero_of _ _ hx
    rcases leWord_ne_zero _ _ hxw with hb | hb
    · refine ⟨((f.drop (4 + i * 8)).take 4).getD 0 0, ?_, ?_⟩
      · rw [List.getD_eq_getElem _ _ (by omega)]
        exact List.getElem_mem _
      · rw [getD_drop_take _ _ _ _ _ (by norm_num : (0:Nat) < 4)]
        simpa using hb
    · refine ⟨((f.drop (4 + i * 8)).take 4).getD 1 0, ?_, ?_⟩
      · rw [List.getD_eq_getElem _ _ (by omega)]
        exact List.getElem_mem _
      · rw [getD_drop_take _ _ _ _ _ (by norm_num : (1:Nat) < 4)]
        simpa using hb
  · have hyw : yw f i ≠ 0 := and_ne_zero_of _ _ hy
    rcases leWord_ne_zero _ _ hyw with hb | hb
    · refine ⟨((f.drop (4 + i * 8)).take 4).getD 2 0, ?_, ?_⟩
      · rw [List.getD_eq_getElem _ _ (by omega)]
        exact List.getElem_mem _
      · rw [getD_drop_take _ _ _ _ _ (by norm_num : (2:Nat) < 4)]
        simpa using hb
    · refine ⟨((f.drop (4 + i * 8)).take 4).getD 3 0, ?_, ?_⟩
      · rw [List.getD_eq_getElem _ _ (by omega)]
        exact List.getElem_mem _
      · rw [getD_drop_take _ _ _ _ _ (by norm_num : (3:Nat) < 4)]
        simpa using hb

/-- An all-zero 8-byte block reads zero words. -/
theorem allZero_words (f : List Nat) (i : Nat)
    (hz : targetBlock f i = List.replicate 8 0) : xw f i = 0 ∧ yw f i = 0 := by
  have hb : ∀ j, j < 8 → f.getD (4 + i * 8 + j) 0 = 0 := by
    intro j hj
    have := getD_drop_take f 8 (4 + i * 8) j 0 hj
    rw [← this]
    unfold targetBlock at hz
    rw [hz]
    interval_cases j <;> rfl
  constructor
  · unfold xw leWord
    rw [show 4 + i * 8 = 4 + i * 8 + 0 by omega, hb 0 (by omega), hb 1 (by omega)]
  · unfold yw leWord
    rw [hb 2 (by omega), hb 3 (by omega)]

/-- **C2 (amended).** For every 30-byte frame with the header magic
`AA FF 03 00` and footer magic `55 CC` that has at least one target block
whose x word or y word carries a nonzero 15-bit magnitude, frame decoding in
both the MQTT and serial bindings yields between 1 and 3 observations; each
observation has slot in `{1,2,3}` (slot = block index + 1) and `x_mm`/`y_mm`
within ±32767, each coordinate word decoded by the polarity rule
(`0x8005 ↦ +5`, `0x0005 ↦ -5`); and a target block whose 8 bytes are all
zero yields no observation.  (The original claim's hypothesis "at least one
8-byte target block that is not all zero bytes" is refuted by
`claim_C2_cex` below.) -/
theorem claim_C2_frame_decode (f : List Nat) (hf : ValidFrame f)
    (hlive : ∃ i, i < 3 ∧ liveBlock f i) :
    (1 ≤ (parseSerial f).length ∧ (parseSerial f).length ≤ 3) ∧
    (1 ≤ (parseMqtt f).length ∧ (parseMqtt f).length ≤ 3) ∧
    (∀ o ∈ parseSerial f, (o.1 = 1 ∨ o.1 = 2 ∨ o.1 = 3) ∧
       -32767 ≤ o.2.1 ∧ o.2.1 ≤ 32767 ∧ -32767 ≤ o.2.2 ∧ o.2.2 ≤ 32767) ∧
    (∀ o ∈ parseMqtt f, (o.1 = 1 ∨ o.1 = 2 ∨ o.1 = 3) ∧
       -32767 ≤ o.2.1 ∧ o.2.1 ≤ 32767 ∧ -32767 ≤ o.2.2 ∧ o.2.2 ≤ 32767) ∧
    s15 0x8005 = 5 ∧ s15 0x0005 = -5 ∧
    (∀ i, i < 3 → targetBlock f i = List.replicate 8 0 →
      (∀ o ∈ parseSerial f, o.1 ≠ i + 1) ∧ (∀ o ∈ parseMqtt f, o.1 ≠ i + 1)) := by
  obtain ⟨i0, hi0, hl0⟩ := hlive
  have hcond0 : s15 (xw f i0) ≠ 0 ∨ s15 (yw f i0) ≠ 0 := by
    rcases hl0 with h | h
    · exact Or.inl ((s15_ne_zero_iff _).mpr h)
    · exact Or.inr ((s15_ne_zero_iff _).mpr h)
  refine ⟨⟨?_, parseSerial_len_le f⟩, ⟨?_, parseMqtt_len_le f⟩, ?_, ?_, by decide, by decide, ?_⟩
  · exact List.length_pos_of_mem
      ((parseSerial_mem f _).mpr ⟨i0, hi0, hcond0, rfl⟩)
  · exact List.length_pos_of_mem
      ((parseMqtt_mem f _).mpr ⟨i0, hi0, liveBlock_chunk_any f i0 hf.1 hi0 hl0, rfl⟩)
  · intro o ho
    obtain ⟨i, hi, _, rfl⟩ := (parseSerial_mem f o).mp ho
    exact ⟨by omega, (s15_bounds _).1, (s15_bounds _).2, (s15_bounds _).1, (s15_bounds _).2⟩
  · intro o ho
    obtain ⟨i, hi, _, rfl⟩ := (parseMqtt_mem f o).mp ho
    exact ⟨by omega, (s15_bounds _).1, (s15_bounds _).2, (s15_bounds _).1, (s15_bounds _).2⟩
  · intro i hi hz
    obtain ⟨hx0, hy0⟩ := allZero_words f i hz
    constructor
    · intro o ho hslot
      obtain ⟨i', _, hc, rfl⟩ := (parseSerial_mem f o).mp ho
      have : i' = i := by simpa using hslot
      subst this
      rw [hx0, hy0] at hc
      rcases hc with h | h <;> exact h (by decide)
    · intro o ho hslot
      obtain ⟨i', _, hc, rfl⟩ := (parseMqtt_mem f o).mp ho
      have hii : i' = i := by simpa using hslot
      rw [hii] at hc
      have hchunk : (f.drop (4 + i * 8)).take 4 = List.replicate 4 0 := by
        have h48 : (f.drop (4 + i * 8)).take 4 = (targetBlock f i).take 4 := by
          unfold targetBlock
          rw [List.take_take]
          norm_num
        rw [h48, hz]
        decide
      rw [hchunk] at hc
      simp at hc

/-- A 30-byte frame that is structurally valid, whose first target block is
*not* all zero (its 5th byte, one of the undecoded reserved/speed bytes, is 1)
but whose x and y words are all zero. -/
def cexFrame : List Nat :=
  [0xAA, 0xFF, 0x03, 0x00, 0, 0, 0, 0, 1, 0, 0, 0] ++
    List.replicate 16 0 ++ [0x55, 0xCC]

/-- **C2 counterexample.** `cexFrame` is a valid 30-byte frame with a target
block that is not all zero bytes, yet both bindings decode zero observations,
refuting "yields between 1 and 3 observations". -/
theorem claim_C2_cex :
    ValidFrame cexFrame ∧ targetBlock cexFrame 0 ≠ List.replicate 8 0 ∧
      parseSerial cexFrame = [] ∧ parseMqtt cexFrame = [] := by
  refine ⟨by decide, by decide, by decide, by decide⟩

/-- A valid frame whose first block has x word `0x8005` (bytes `05 80`) and
y word `0x0005` (bytes `05 00`). -/
def liveFrame : List Nat :=
  [0xAA, 0xFF, 0x03, 0x00, 0x05, 0x80, 0x05, 0x00, 0, 0, 0, 0] ++
    List.replicate 16 0 ++ [0x55, 0xCC]

/-- Witness for `claim_C2_frame_decode` at the concrete frame `liveFrame`. -/
theorem claim_C2_frame_decode_witness :
    1 ≤ (parseSerial liveFrame).length ∧ (parseSerial liveFrame).length ≤ 3 :=
  (claim_C2_frame_decode liveFrame (by decide)
    ⟨0, by norm_num, by decide⟩).1
/-! ## Replay seek (playback_gui.py `RadarPlaybackGUI._seek`) -/

/-- Python `round` (banker's rounding, round-half-to-even) on a rational. -/
def pyRound (q : ℚ) : Int :=
  if q - ⌊q⌋ > 1 / 2 then ⌊q⌋ + 1
  else if q - ⌊q⌋ < 1 / 2 then ⌊q⌋
  else if ⌊q⌋ % 2 = 0 then ⌊q⌋ else ⌊q⌋ + 1

/-- `RadarPlaybackGUI._seek`: clamp the fraction to `[0, 1]`
(`rel = max(0.0, min(1.0, rel))`) and truncate
(`self.idx = int(rel * max(len(self.data) - 1, 0))`); `int()` on a
nonnegative value is the floor. -/
def seekIdx (n : Nat) (rel : ℚ) : Nat :=
  (⌊(max 0 (min 1 rel)) * ((max ((n : Int) - 1) 0 : Int) : ℚ)⌋).toNat

/-- Reading "latest" immediately after a seek: the worker loop publishes
`self.data[self.idx]` as `latest_frame` (playback_gui.py lines 185-186). -/
def latestAfterSeek (data : List (List ℚ)) (rel : ℚ) : Option (List ℚ) :=
  data.get? (seekIdx data.length rel)

theorem seekIdx_half (n : Nat) (hn : 1 ≤ n) :
    seekIdx n (1 / 2) = (n - 1) / 2 := by
  unfold seekIdx
  rw [min_eq_right (by norm_num : (1/2 : ℚ) ≤ 1),
      max_eq_right (by norm_num : (0:ℚ) ≤ 1/2),
      max_eq_left (by omega : (0 : Int) ≤ (n : Int) - 1)]
  rw [show ((1:ℚ)/2) * (((n : Int) - 1 : Int) : ℚ) = (((n : Int) - 1 : Int) : ℚ) / ((2 : Nat) : ℚ) by push_cast; ring]
  rw [Rat.floor_intCast_div_natCast]
  omega

/-- **C9 (amended).** Replay seek-by-fraction clamps the fraction to `[0,1]`
and maps it to a row index of the loaded N-row sequence; seeking to fraction
0.5 and immediately reading "latest" yields the row at index
`⌊0.5 * (N - 1)⌋` (floor, by `int()` truncation — not `round` as the claim
stated, refuted by `claim_C9_cex`). -/
theorem claim_C9_seek (data : List (List ℚ)) (rel : ℚ) (hn : data ≠ []) :
    (rel ≤ 0 → seekIdx data.length rel = 0) ∧
    (1 ≤ rel → seekIdx data.length rel = data.length - 1) ∧
    (seekIdx data.length rel ≤ data.length - 1) ∧
    latestAfterSeek data (1 / 2) = data.get? ((data.length - 1) / 2) := by
  have hlen : 1 ≤ data.length := List.length_pos_of_ne_nil hn
  refine ⟨?_, ?_, ?_, ?_⟩
  · intro h
    unfold seekIdx
    rw [max_eq_left ((min_le_right 1 rel).trans h), zero_mul, Int.floor_zero]
    rfl
  · intro h
    unfold seekIdx
    rw [min_eq_left h, max_eq_right (by norm_num : (0:ℚ) ≤ 1), one_mul,
        Int.floor_intCast]
    omega
  · unfold seekIdx
    have h1 : max 0 (min 1 rel) ≤ 1 := by
      rcases le_total 1 rel with h | h
      · rw [min_eq_left h]; norm_num
      · rw [min_eq_right h]
        exact max_le (by norm_num) h
    have hm : (0 : Int) ≤ max ((data.length : Int) - 1) 0 := le_max_right _ _
    have h2 : (max 0 (min 1 rel)) * ((max ((data.length : Int) - 1) 0 : Int) : ℚ) ≤
        ((max ((data.length : Int) - 1) 0 : Int) : ℚ) := by
      calc (max 0 (min 1 rel)) * ((max ((data.length : Int) - 1) 0 : Int) : ℚ)
          ≤ 1 * ((max ((data.length : Int) - 1) 0 : Int) : ℚ) :=
            mul_le_mul_of_nonneg_right h1 (by exact_mod_cast hm)
        _ = _ := one_mul _
    have h3 := Int.floor_le_floor h2
    rw [Int.floor_intCast] at h3
    omega
  · unfold latestAfterSeek
    rw [seekIdx_half _ hlen]

/-- Witness for `claim_C9_seek` on a concrete 4-row sequence. -/
theorem claim_C9_seek_witness :
    ((1:ℚ) ≤ 0 → seekIdx 4 1 = 0) ∧
    (1 ≤ (1:ℚ) → seekIdx 4 1 = 4 - 1) ∧
    (seekIdx 4 1 ≤ 4 - 1) ∧
    latestAfterSeek [[0], [1], [2], [3]] (1 / 2) = some [1] := by
  exact claim_C9_seek [[0], [1], [2], [3]] 1 (by simp)

/-- **C9 counterexample.** On a 4-row sequence, seeking to fraction 0.5 lands
on index `int(1.5) = 1`, not `round(0.5 * (4 - 1)) = round(1.5) = 2` as the
claim states. -/
theorem claim_C9_cex :
    seekIdx 4 (1 / 2) = 1 ∧ pyRound ((1 / 2) * (4 - 1)) = 2 := by
  constructor
  · rw [seekIdx_half 4 (by norm_num)]
  · have h32 : ⌊(3/2 : ℚ)⌋ = 1 := by
      rw [show (3/2 : ℚ) = ((3 : Int) : ℚ) / ((2 : Nat) : ℚ) by norm_num,
          Rat.floor_intCast_div_natCast]
      decide
    norm_num [pyRound, h32]

/-! ## Track index scan at startup (tracking.py `Tracker._scan_TrackIndex`) -/

/-- CSV fields are modelled as character lists. -/
abbrev CsvField := List Char

/-- Python `int(s)` on an ASCII string: optional surrounding whitespace,
optional sign, then at least one digit; anything else raises `ValueError`
(modelled as `none`). -/
def pyInt (s : CsvField) : Option Int :=
  let t := (s.dropWhile Char.isWhitespace).reverse.dropWhile Char.isWhitespace |>.reverse
  let neg := t.head? = some '-'
  let core := if t.head? = some '-' ∨ t.head? = some '+' then t.drop 1 else t
  if core ≠ [] ∧ core.all Char.isDigit then
    some ((if neg then -1 else 1) *
      (core.foldl (fun n c => n * 10 + ((c.toNat : Int) - 48)) 0))
  else none

/-- The loop body of `Tracker._scan_TrackIndex` over the parsed data rows of
today's index CSV.  Each list element is the row's `serial` field, `none`
when the row has no `serial` column — in which case `r["serial"]` raises
`KeyError`.  For a serial starting with `"T"` (`r["serial"].startswith("T")`),
`int(r["serial"][1:])` raises `ValueError` on a non-numeric tail; other
serials are skipped; the running maximum starts at 0
(`max_ser = max(max_ser, int(r["serial"][1:]))`). -/
def scanTrackIndex (rows : List (Option CsvField)) : Except String Int :=
  rows.foldlM (fun acc ser? =>
    match ser? with
    | none => .error "KeyError"
    | some s =>
        if s.head? = some 'T' then
          match pyInt (s.drop 1) with
          | some n => .ok (max acc n)
          | none => .error "ValueError"
        else .ok acc) 0

/-- `Tracker.__init__`: `self.serial_iter = count(self.max_serial + 1)` —
the first serial number handed out after startup. -/
def firstSerialFromIndex (rows : List (Option CsvField)) : Except String Int :=
  (scanTrackIndex rows).map (fun m => m + 1)

theorem scan_go_skip (rows : List (Option CsvField)) (acc : Int)
    (h : ∀ r ∈ rows, ∃ s, r = some s ∧ ¬s.head? = some 'T') :
    rows.foldlM (fun acc ser? =>
      match ser? with
      | none => .error "KeyError"
      | some s =>
          if s.head? = some 'T' then
            match pyInt (s.drop 1) with
            | some n => .ok (max acc n)
            | none => .error "ValueError"
          else .ok acc) acc = Except.ok acc := by
  induction rows generalizing acc with
  | nil => rfl
  | cons r rs ih =>
    obtain ⟨s, rfl, hs⟩ := h r (List.mem_cons_self r rs)
    simp only [List.foldlM_cons, if_neg hs]
    exact ih acc (fun r hr => h r (List.mem_cons_of_mem _ hr))

/-- **C6 (amended).** If the per-day track index file exists but none of its
data rows carries a `"T"`-prefixed serial (e.g. a header-only file, an empty
file, or rows whose serial values do not start with `"T"`), startup
succeeds, the maximum prior serial is treated as 0, and the serial counter
starts from 1.  (The original claim — that *any* corrupt or unreadable index
is tolerated without raising — is refuted by `claim_C6_cex`: a row with a
missing `serial` column raises `KeyError`, and a serial `"Tabc"` raises
`ValueError`, so construction does crash on such indexes.) -/
theorem claim_C6_scan (rows : List (Option CsvField))
    (h : ∀ r ∈ rows, ∃ s, r = some s ∧ ¬s.head? = some 'T') :
    scanTrackIndex rows = .ok 0 ∧ firstSerialFromIndex rows = .ok 1 := by
  have h0 : scanTrackIndex rows = .ok 0 := scan_go_skip rows 0 h
  exact ⟨h0, by rw [firstSerialFromIndex, h0]; rfl⟩

/-- Witness for `claim_C6_scan` on a concrete junk row. -/
theorem claim_C6_scan_witness :
    scanTrackIndex [some ['x', 'y', 'z']] = .ok 0 ∧
      firstSerialFromIndex [some ['x', 'y', 'z']] = .ok 1 :=
  claim_C6_scan [some ['x', 'y', 'z']] (by
    intro r hr
    simp only [List.mem_singleton] at hr
    exact ⟨['x', 'y', 'z'], hr, by decide⟩)

/-- **C6 counterexample.** Startup *does* raise on a corrupt index: a row
whose serial is `"Tabc"` makes `int("abc")` raise `ValueError`, and a row
without a `serial` column raises `KeyError`; in both cases `Tracker`
construction fails rather than degrading to a zero serial counter. -/
theorem claim_C6_cex :
    scanTrackIndex [some ['T', 'a', 'b', 'c']] = .error "ValueError" ∧
      scanTrackIndex [none] = .error "KeyError" := by
  constructor <;> rfl

/-! ## Track lifecycle engine (tracking.py `Tracker`, gui.py watchdog)

The engine state is modelled with association lists preserving Python dict
insertion order.  Serials are modelled by their numeric part (the code
formats them as `"T{n}"`).  Wall-clock and monotonic time are modelled by a
single rational time source.  The kinematic history tuple stored in
`info["hist"]` never feeds back into lifecycle decisions (it only determines
the speed/accel values written to the per-track CSV), and is modelled
separately in the kinematics section below. -/

/-- `Tracker.END_TIMEOUT = 3.0` — seconds of silence after which a track ends. -/
def END_TIMEOUT : ℚ := 3

/-- Lifecycle data of one live track (`self.active[ser]`): creation time
`first` and `last_ts`. -/
structure Track where
  first : ℚ
  lastTs : ℚ
deriving DecidableEq

/-- One archived entry of `self.recent`
(`dict(serial=ser, first=first, last=last, dur=dur)`). -/
structure RecentRec where
  serial : Nat
  first : ℚ
  last : ℚ
deriving DecidableEq

/-- One row of the per-day TrackIndex CSV; timestamps are stored truncated
to whole seconds (`isoformat(timespec="seconds")`), durations truncated to
whole seconds (`str(dur).split(".")[0]`). -/
structure IndexRow where
  firstSeen : Int
  serial : Nat
  lastSeen : Int
  duration : Int
deriving DecidableEq

/-- The mutable state of `Tracker` (plus the `closed` ghost list recording
which per-track history files have been closed, i.e. the file-system effect
of `info["fh"].close()`). -/
structure TrackerS where
  slot2ser : List (Nat × Nat)
  active : List (Nat × Track)
  recent : List RecentRec
  nextSerial : Nat
  index : List IndexRow
  closed : List Nat
deriving DecidableEq

/-- Association-list lookup (Python `dict.get` / `in`). -/
def alookup {α : Type} (k : Nat) : List (Nat × α) → Option α
  | [] => none
  | (k', v) :: rest => if k' = k then some v else alookup k rest

/-- Association-list store (Python `d[k] = v`): overwrite in place, else
append, preserving dict insertion order. -/
def setAssoc {α : Type} (k : Nat) (v : α) : List (Nat × α) → List (Nat × α)
  | [] => [(k, v)]
  | (k', v') :: rest =>
      if k' = k then (k, v) :: rest else (k', v') :: setAssoc k v rest

/-- Duration written at expiry: `str(last - first).split(".")[0]`, i.e.
the exact elapsed time truncated to whole seconds. -/
def mkDur (first now : ℚ) : Int := ⌊now - first⌋

/-- The TrackIndex rewrite of `Tracker._expire`: find the first row matching
the serial and the truncated first-seen stamp, overwrite its `last_seen` and
`duration` in place (`break` after the first match), keep every other row. -/
def finalizeRow (ser : Nat) (firstSec lastSec dur : Int) :
    List IndexRow → List IndexRow
  | [] => []
  | r :: rs =>
    if r.serial = ser ∧ r.firstSeen = firstSec then
      { r with lastSeen := lastSec, duration := dur } :: rs
    else r :: finalizeRow ser firstSec lastSec dur rs

/-- `Tracker._expire ser`: close the history file, finalize the index row,
prepend to `recent` and pop beyond 3 (`insert(0, …)`, `pop()` if `len > 3`),
delete the live entry and every slot mapping to it. -/
def expire (now : ℚ) (st : TrackerS) (ser : Nat) : TrackerS :=
  match alookup ser st.active with
  | none => st
  | some tr =>
    let rec1 := RecentRec.mk ser tr.first now :: st.recent
    { slot2ser := st.slot2ser.filter (fun p => p.2 ≠ ser)
      active := st.active.filter (fun p => p.1 ≠ ser)
      recent := if 3 < rec1.length then rec1.dropLast else rec1
      nextSerial := st.nextSerial
      index := finalizeRow ser ⌊tr.first⌋ ⌊now⌋ (mkDur tr.first now) st.index
      closed := st.closed ++ [ser] }

/-- `Tracker._open_verbose` + serial allocation (`ser = f"T{next(self.serial_iter)}"`):
register the slot, seed the live entry, append the provisional index row
(`last_seen = first_seen`, zero duration). -/
def newTrack (now : ℚ) (st : TrackerS) (slot : Nat) : TrackerS :=
  { slot2ser := setAssoc slot st.nextSerial st.slot2ser
    active := setAssoc st.nextSerial (Track.mk now now) st.active
    recent := st.recent
    nextSerial := st.nextSerial + 1
    index := st.index ++ [IndexRow.mk ⌊now⌋ st.nextSerial ⌊now⌋ 0]
    closed := st.closed }

/-- The per-observation body of `Tracker.update`: reuse the slot's serial if
it is still live (`ser = slot2ser.get(slot)`; `if ser is None or ser not in
active`), else allocate a new track; refresh `last_ts`. -/
def updateSlot (now : ℚ) (st : TrackerS) (slot : Nat) : TrackerS :=
  match alookup slot st.slot2ser with
  | some ser =>
    match alookup ser st.active with
    | some tr => { st with active := setAssoc ser (Track.mk tr.first now) st.active }
    | none => newTrack now st slot
  | none => newTrack now st slot

/-- The expiry sweep at the end of `Tracker.update`: over a snapshot of the
live serials (`for ser in list(self.active)`), expire those silent for more
than `END_TIMEOUT`. -/
def sweep (now : ℚ) (st : TrackerS) : TrackerS :=
  (st.active.map Prod.fst).foldl (fun s ser =>
    match alookup ser s.active with
    | some tr => if END_TIMEOUT < now - tr.lastTs then expire now s ser else s
    | none => s) st

/-- `Tracker.update`: process the batch observations (only their slots are
lifecycle-relevant), then run the expiry sweep. -/
def update (now : ℚ) (st : TrackerS) (batch : List Nat) : TrackerS :=
  sweep now (batch.foldl (updateSlot now) st)

/-- `Tracker.__init__` after the index scan: empty maps, serial iterator
starting at `max_serial + 1`. -/
def initState (nextSer : Nat) : TrackerS := TrackerS.mk [] [] [] nextSer [] []

/-- Run a sequence of timed batches through `Tracker.update`. -/
def runUpdates (st : TrackerS) : List (ℚ × List Nat) → TrackerS
  | [] => st
  | (t, B) :: rest => runUpdates (update t st B) rest

/-- `RadarGUI._end_all_targets`: append a record for every live track to
`recent` (`self.tracker.recent.append(record)` — no truncation), delete all
live entries, purge the slot map.  The history files are *not* closed and
the index rows are *not* finalized. -/
def endAllTargets (now : ℚ) (st : TrackerS) : TrackerS :=
  { slot2ser := []
    active := []
    recent := st.recent ++ st.active.map (fun p => RecentRec.mk p.1 p.2.first now)
    nextSerial := st.nextSerial
    index := st.index
    closed := st.closed }

/-- `RadarGUI.DATA_TIMEOUT_SEC = 1.0`. -/
def DATA_TIMEOUT_SEC : ℚ := 1

/-- The stream watchdog in `RadarGUI.run`: once per frame, if not already in
the data-lost state and the last batch is older than the threshold, set the
banner flag and force-expire all live tracks. -/
def watchdogStep (now tLastFrame : ℚ) (dataLost : Bool) (st : TrackerS) :
    Bool × TrackerS :=
  if dataLost = false ∧ DATA_TIMEOUT_SEC < now - tLastFrame then
    (true, endAllTargets now st)
  else (dataLost, st)

/-! ### C4 — the data-loss watchdog -/

/-- **C4 (amended).** Whenever no batch has been delivered for more than the
data-loss threshold (1.0 s), the watchdog fires immediately: it sets the
data-lost flag and removes every live track from the live-track table and
the slot map, appending a record for each to the recent list — so no track
remains in the live-track table more than 1.0 s into a connection outage,
even though each track's individual silence is below `END_TIMEOUT`.  Unlike
the expiry sweep, however, it does **not** close the per-track history file,
does not finalize the track's index row, and appends to the recent list
without truncation (refuting the "same expiry actions" part of the original
claim, see `claim_C4_cex`). -/
theorem claim_C4_watchdog (st : TrackerS) (tLast now : ℚ)
    (h : DATA_TIMEOUT_SEC < now - tLast) :
    (watchdogStep now tLast false st).1 = true ∧
    (watchdogStep now tLast false st).2.active = [] ∧
    (watchdogStep now tLast false st).2.slot2ser = [] ∧
    (watchdogStep now tLast false st).2.recent =
      st.recent ++ st.active.map (fun p => RecentRec.mk p.1 p.2.first now) ∧
    (watchdogStep now tLast false st).2.index = st.index ∧
    (watchdogStep now tLast false st).2.closed = st.closed := by
  unfold watchdogStep
  rw [if_pos ⟨rfl, h⟩]
  exact ⟨rfl, rfl, rfl, rfl, rfl, rfl⟩

/-- A state with one live track on slot 1, serial 5, created at time 0,
with its provisional index row. -/
def stW : TrackerS :=
  TrackerS.mk [(1, 5)] [(5, Track.mk 0 0)] [] 6 [IndexRow.mk 0 5 0 0] []

/-- Witness for `claim_C4_watchdog` at the concrete state `stW`. -/
theorem claim_C4_watchdog_witness :
    (watchdogStep 2 0 false stW).1 = true ∧
    (watchdogStep 2 0 false stW).2.active = [] ∧
    (watchdogStep 2 0 false stW).2.slot2ser = [] ∧
    (watchdogStep 2 0 false stW).2.recent =
      stW.recent ++ stW.active.map (fun p => RecentRec.mk p.1 p.2.first 2) ∧
    (watchdogStep 2 0 false stW).2.index = stW.index ∧
    (watchdogStep 2 0 false stW).2.closed = stW.closed :=
  claim_C4_watchdog stW 0 2 (by norm_num [DATA_TIMEOUT_SEC])

/-- **C4 counterexample.** After the watchdog fires on `stW` (a live track
whose history file is open and whose index row is provisional), the history
file is still open (`closed = []`) and the index row is still the
provisional one — whereas the expiry path closes the file and finalizes the
row.  The watchdog does *not* perform "the same expiry actions". -/
theorem claim_C4_cex :
    (watchdogStep 2 0 false stW).2.closed = [] ∧
    (watchdogStep 2 0 false stW).2.index = [IndexRow.mk 0 5 0 0] ∧
    (expire 2 stW 5).closed = [5] ∧
    (expire 2 stW 5).index = [IndexRow.mk 0 5 2 2] := by
  refine ⟨?_, ?_, ?_, ?_⟩ <;>
    norm_num [watchdogStep, endAllTargets, DATA_TIMEOUT_SEC, stW, expire,
      alookup, mkDur, finalizeRow]

/-! ### C7 — the recent list -/

/-- **C7 (amended).** The per-batch expiry sweep keeps the recent list
bounded: expiring a track prepends its record and truncates the list to 3
entries (most-recent-first), so if the list had at most 3 entries it still
has at most 3.  The watchdog's force-expiry, however, *appends* each live
track's record to the end of the recent list and never truncates, so after
a force-expiry the list can exceed 3 entries and is not most-recent-first
(refuting the original claim, see `claim_C7_cex`). -/
theorem claim_C7_recent (now : ℚ) (st : TrackerS) (ser : Nat) (tr : Track)
    (hs : alookup ser st.active = some tr) (hlen : st.recent.length ≤ 3) :
    (expire now st ser).recent =
      (RecentRec.mk ser tr.first now :: st.recent).take 3 ∧
    (expire now st ser).recent.length ≤ 3 ∧
    (endAllTargets now st).recent =
      st.recent ++ st.active.map (fun p => RecentRec.mk p.1 p.2.first now) := by
  have hrec : (expire now st ser).recent =
      (let rec1 := RecentRec.mk ser tr.first now :: st.recent
       if 3 < rec1.length then rec1.dropLast else rec1) := by
    unfold expire; rw [hs]
  refine ⟨?_, ?_, rfl⟩
  · rw [hrec]
    simp only [List.length_cons]
    split
    · rename_i hgt
      have h3 : st.recent.length = 3 := by omega
      rw [List.dropLast_eq_take]
      simp [h3]
    · rw [List.take_of_length_le (by simp; omega)]
  · rw [hrec]
    simp only [List.length_cons]
    split
    · rw [List.length_dropLast]
      simp only [List.length_cons]
      omega
    · simp only [List.length_cons]
      omega

/-- A state with three archived tracks in `recent` and one live track. -/
def st7 : TrackerS :=
  TrackerS.mk [(1, 9)] [(9, Track.mk 0 0)]
    [RecentRec.mk 6 0 0, RecentRec.mk 7 0 0, RecentRec.mk 8 0 0] 10 [] []

/-- Witness for `claim_C7_recent` at the concrete state `st7`. -/
theorem claim_C7_recent_witness :
    (expire 5 st7 9).recent = (RecentRec.mk 9 0 5 :: st7.recent).take 3 ∧
    (expire 5 st7 9).recent.length ≤ 3 ∧
    (endAllTargets 5 st7).recent =
      st7.recent ++ st7.active.map (fun p => RecentRec.mk p.1 p.2.first 5) :=
  claim_C7_recent 5 st7 9 (Track.mk 0 0) rfl (by norm_num [st7])

/-- **C7 counterexample.** Force-expiring the live track of `st7` through
the watchdog path leaves 4 entries in the recent list — more than the
claimed bound of 3 — and the newly expired track sits at the *end* of the
list, not most-recent-first. -/
theorem claim_C7_cex :
    (endAllTargets 5 st7).recent.length = 4 ∧
    (endAllTargets 5 st7).recent.getLast? = some (RecentRec.mk 9 0 5) := by
  constructor <;> norm_num [endAllTargets, st7]

/-! ### C8 — index finalization at expiry -/

theorem finalizeRow_length (ser : Nat) (fs ls d : Int) (l : List IndexRow) :
    (finalizeRow ser fs ls d l).length = l.length := by
  induction l with
  | nil => rfl
  | cons r rs ih =>
    unfold finalizeRow
    split
    · simp
    · simp [ih]

theorem finalizeRow_get (ser : Nat) (fs ls d : Int) (l : List IndexRow)
    (i : Nat) :
    (finalizeRow ser fs ls d l).get? i = l.get? i ∨
    (∃ r, l.get? i = some r ∧ r.serial = ser ∧ r.firstSeen = fs ∧
      (finalizeRow ser fs ls d l).get? i = some (IndexRow.mk fs ser ls d)) := by
  induction l generalizing i with
  | nil => left; rfl
  | cons r rs ih =>
    unfold finalizeRow
    split
    · rename_i hm
      cases i with
      | zero =>
        right
        refine ⟨r, rfl, hm.1, hm.2, ?_⟩
        have hr : ({ r with lastSeen := ls, duration := d } : IndexRow) =
            IndexRow.mk fs ser ls d := by
          rw [← hm.1, ← hm.2]
        exact congrArg some hr
      | succ j => left; rfl
    · cases i with
      | zero => left; rfl
      | succ j => exact ih j

/-- The two floors straddle: `⌊a⌋ - ⌊b⌋ - 1 ≤ ⌊a - b⌋ ≤ ⌊a⌋ - ⌊b⌋`. -/
theorem floor_sub_straddle (a b : ℚ) :
    ⌊a⌋ - ⌊b⌋ - 1 ≤ ⌊a - b⌋ ∧ ⌊a - b⌋ ≤ ⌊a⌋ - ⌊b⌋ := by
  constructor
  · rw [Int.le_floor]
    push_cast
    have h1 : (⌊a⌋ : ℚ) ≤ a := Int.floor_le a
    have h2 : b < ⌊b⌋ + 1 := Int.lt_floor_add_one b
    linarith
  · have h3 : ⌊a - b⌋ + ⌊b⌋ ≤ ⌊a⌋ := by
      rw [Int.le_floor]
      push_cast
      have h4 : (⌊a - b⌋ : ℚ) ≤ a - b := Int.floor_le (a - b)
      have h5 : (⌊b⌋ : ℚ) ≤ b := Int.floor_le b
      linarith
    omega

/-- **C8 (amended).** After a track expires via the expiry sweep, its index
row is updated in place: the index row count is unchanged and every row is
either untouched or is the (first) row matching the expired track's serial
and first-seen stamp, rewritten with the finalized `last_seen` and
`duration`.  The stored `duration` is the exact elapsed time truncated to
whole seconds, which equals `last_seen - first_seen` only up to one second:
`0 ≤ (last_seen - first_seen) - duration ≤ 1` (it can genuinely differ by
one second, see `claim_C8_cex`). -/
theorem claim_C8_index (now : ℚ) (st : TrackerS) (ser : Nat) (tr : Track)
    (hs : alookup ser st.active = some tr) :
    (expire now st ser).index.length = st.index.length ∧
    (∀ i, (expire now st ser).index.get? i = st.index.get? i ∨
      (∃ r, st.index.get? i = some r ∧ r.serial = ser ∧
        r.firstSeen = ⌊tr.first⌋ ∧
        (expire now st ser).index.get? i =
          some (IndexRow.mk ⌊tr.first⌋ ser ⌊now⌋ (mkDur tr.first now)))) ∧
    0 ≤ (⌊now⌋ - ⌊tr.first⌋) - mkDur tr.first now ∧
    (⌊now⌋ - ⌊tr.first⌋) - mkDur tr.first now ≤ 1 := by
  have hE : (expire now st ser).index =
      finalizeRow ser ⌊tr.first⌋ ⌊now⌋ (mkDur tr.first now) st.index := by
    unfold expire; rw [hs]
  refine ⟨by rw [hE]; exact finalizeRow_length _ _ _ _ _,
          fun i => by rw [hE]; exact finalizeRow_get _ _ _ _ _ i, ?_, ?_⟩
  · unfold mkDur
    have h := floor_sub_straddle now tr.first
    omega
  · unfold mkDur
    have h := floor_sub_straddle now tr.first
    omega

/-- A state whose live track was created at time 9/10 (0.9 s), with its
provisional index row stamped at second 0. -/
def st8 : TrackerS :=
  TrackerS.mk [(1, 4)] [(4, Track.mk (9/10) (9/10))] [] 5 [IndexRow.mk 0 4 0 0] []

/-- Witness for `claim_C8_index` at the concrete state `st8`. -/
theorem claim_C8_index_witness :
    (expire 1 st8 4).index.length = st8.index.length ∧
    (∀ i, (expire 1 st8 4).index.get? i = st8.index.get? i ∨
      (∃ r, st8.index.get? i = some r ∧ r.serial = 4 ∧
        r.firstSeen = ⌊(9/10 : ℚ)⌋ ∧
        (expire 1 st8 4).index.get? i =
          some (IndexRow.mk ⌊(9/10 : ℚ)⌋ 4 ⌊(1 : ℚ)⌋ (mkDur (9/10) 1)))) ∧
    0 ≤ (⌊(1 : ℚ)⌋ - ⌊(9/10 : ℚ)⌋) - mkDur (9/10) 1 ∧
    (⌊(1 : ℚ)⌋ - ⌊(9/10 : ℚ)⌋) - mkDur (9/10) 1 ≤ 1 :=
  claim_C8_index 1 st8 4 (Track.mk (9/10) (9/10)) rfl

/-- **C8 counterexample.** Expiring the track of `st8` (created at 0.9 s) at
time 1.0 s writes `duration = 0` (elapsed 0.1 s truncated) into its index
row while `last_seen - first_seen = 1 - 0 = 1` second: the row's duration
does not equal `last_seen - first_seen` at second granularity. -/
theorem claim_C8_cex :
    (expire 1 st8 4).index = [IndexRow.mk 0 4 1 0] ∧
    ((1 : Int) - (0 : Int) ≠ (0 : Int)) := by
  constructor
  · norm_num [expire, alookup, st8, mkDur, finalizeRow]
  · decide

/-! ### C3 — track identity: serial stability and reuse -/

theorem alookup_setAssoc_self {α : Type} (k : Nat) (v : α) (l : List (Nat × α)) :
    alookup k (setAssoc k v l) = some v := by
  induction l with
  | nil => simp [setAssoc, alookup]
  | cons p rest ih =>
    unfold setAssoc
    split
    · simp [alookup]
    · rename_i hne
      unfold alookup
      rw [if_neg hne]
      exact ih

theorem alookup_setAssoc_ne {α : Type} (k k' : Nat) (v : α) (l : List (Nat × α))
    (h : k ≠ k') :
    alookup k' (setAssoc k v l) = alookup k' l := by
  induction l with
  | nil => simp [setAssoc, alookup, h]
  | cons p rest ih =>
    unfold setAssoc
    split
    · rename_i heq
      unfold alookup
      rw [if_neg h, if_neg (heq ▸ h)]
    · unfold alookup
      split
      · rfl
      · exact ih

theorem alookup_filter {α : Type} (k : Nat) (v : α) (l : List (Nat × α))
    (p : Nat × α → Bool) (h : alookup k l = some v) (hp : p (k, v) = true) :
    alookup k (l.filter p) = some v := by
  induction l with
  | nil => simp [alookup] at h
  | cons q rest ih =>
    obtain ⟨qk, qv⟩ := q
    unfold alookup at h
    by_cases hk : qk = k
    · rw [if_pos hk] at h
      injection h with h
      subst hk
      subst h
      rw [List.filter_cons, if_pos hp]
      simp [alookup]
    · rw [if_neg hk] at h
      rw [List.filter_cons]
      split
      · unfold alookup
        rw [if_neg hk]
        exact ih h
      · exact ih h

theorem alookup_mem {α : Type} (k : Nat) (v : α) (l : List (Nat × α))
    (h : alookup k l = some v) : (k, v) ∈ l := by
  induction l with
  | nil => simp [alookup] at h
  | cons q rest ih =>
    obtain ⟨qk, qv⟩ := q
    unfold alookup at h
    split at h
    · rename_i hk
      injection h with h
      subst h
      have hk2 : qk = k := hk
      subst hk2
      exact List.mem_cons_self _ _
    · exact List.mem_cons_of_mem _ (ih h)

theorem alookup_filter_none {α : Type} (k : Nat) (l : List (Nat × α))
    (p : Nat × α → Bool) (h : ∀ v, (k, v) ∈ l → p (k, v) = false) :
    alookup k (l.filter p) = none := by
  induction l with
  | nil => rfl
  | cons q rest ih =>
    obtain ⟨qk, qv⟩ := q
    rw [List.filter_cons]
    split
    · rename_i hq
      unfold alookup
      have hk : qk ≠ k := by
        intro hk
        subst hk
        rw [h qv (List.mem_cons_self _ _)] at hq
        simp at hq
      rw [if_neg hk]
      exact ih (fun v hv => h v (List.mem_cons_of_mem _ hv))
    · exact ih (fun v hv => h v (List.mem_cons_of_mem _ hv))

/-- Invariant tying slot `s` to serial `σ`: the slot maps to `σ`, `σ` is
live with `last_ts` at least `tLast` (the time of the slot's most recent
observation), and `σ` predates the serial counter. -/
def SlotInv (st : TrackerS) (s σ : Nat) (tLast : ℚ) : Prop :=
  alookup s st.slot2ser = some σ ∧
  (∃ tr, alookup σ st.active = some tr ∧ tLast ≤ tr.lastTs) ∧
  σ < st.nextSerial

theorem updateSlot_pres (now : ℚ) (st : TrackerS) (s σ : Nat) (tLast : ℚ)
    (s₂ : Nat) (h : SlotInv st s σ tLast) (hle : tLast ≤ now) :
    SlotInv (updateSlot now st s₂) s σ (if s₂ = s then now else tLast) := by
  obtain ⟨hmap, ⟨tr, hact, htr⟩, hser⟩ := h
  by_cases hss : s₂ = s
  · subst hss
    rw [if_pos rfl]
    simp only [updateSlot, hmap, hact]
    exact ⟨hmap, ⟨Track.mk tr.first now, alookup_setAssoc_self _ _ _, le_refl now⟩, hser⟩
  · rw [if_neg hss]
    cases hm2 : alookup s₂ st.slot2ser with
    | some ser₂ =>
      cases ha2 : alookup ser₂ st.active with
      | some tr₂ =>
        simp only [updateSlot, hm2, ha2]
        refine ⟨hmap, ?_, hser⟩
        by_cases hs2 : ser₂ = σ
        · subst hs2
          exact ⟨Track.mk tr₂.first now, alookup_setAssoc_self _ _ _, hle⟩
        · exact ⟨tr, by rw [alookup_setAssoc_ne _ _ _ _ hs2]; exact hact, htr⟩
      | none =>
        simp only [updateSlot, hm2, ha2, newTrack]
        refine ⟨?_, ⟨tr, ?_, htr⟩, by show σ < st.nextSerial + 1; omega⟩
        · rw [alookup_setAssoc_ne _ _ _ _ hss]
          exact hmap
        · rw [alookup_setAssoc_ne _ _ _ _ (by omega : st.nextSerial ≠ σ)]
          exact hact
    | none =>
      simp only [updateSlot, hm2, newTrack]
      refine ⟨?_, ⟨tr, ?_, htr⟩, by show σ < st.nextSerial + 1; omega⟩
      · rw [alookup_setAssoc_ne _ _ _ _ hss]
        exact hmap
      · rw [alookup_setAssoc_ne _ _ _ _ (by omega : st.nextSerial ≠ σ)]
        exact hact

theorem foldBatch_pres (now : ℚ) (B : List Nat) (st : TrackerS) (s σ : Nat)
    (tLast : ℚ) (h : SlotInv st s σ tLast) (hle : tLast ≤ now) :
    SlotInv (B.foldl (updateSlot now) st) s σ (if s ∈ B then now else tLast) := by
  induction B generalizing st tLast with
  | nil => simpa using h
  | cons b B' ih =>
    have h1 := updateSlot_pres now st s σ tLast b h hle
    have h2 := ih (updateSlot now st b) (if b = s then now else tLast) h1
      (by split <;> [exact le_refl now; exact hle])
    simp only [List.foldl_cons]
    by_cases hmem : s ∈ B'
    · rw [if_pos hmem] at h2
      rw [if_pos (List.mem_cons_of_mem _ hmem)]
      exact h2
    · rw [if_neg hmem] at h2
      by_cases hbs : b = s
      · rw [if_pos hbs] at h2
        rw [if_pos (hbs ▸ List.mem_cons_self b B')]
        exact h2
      · rw [if_neg hbs] at h2
        rw [if_neg (by
          intro hc
          rcases List.mem_cons.mp hc with hc | hc
          · exact hbs hc.symm
          · exact hmem hc)]
        exact h2

theorem expire_pres (now : ℚ) (st : TrackerS) (s σ : Nat) (tLast : ℚ)
    (ser' : Nat) (h : SlotInv st s σ tLast) (hne : ser' ≠ σ) :
    SlotInv (expire now st ser') s σ tLast := by
  obtain ⟨hmap, ⟨tr, hact, htr⟩, hser⟩ := h
  unfold expire
  cases he : alookup ser' st.active with
  | none => exact ⟨hmap, ⟨tr, hact, htr⟩, hser⟩
  | some tr' =>
    refine ⟨?_, ⟨tr, ?_, htr⟩, hser⟩
    · simp only
      exact alookup_filter _ _ _ _ hmap (by simp [Ne.symm hne])
    · simp only
      exact alookup_filter _ _ _ _ hact (by simp [Ne.symm hne])

theorem sweepGo_pres (now : ℚ) (L : List Nat) (st : TrackerS) (s σ : Nat)
    (tLast : ℚ) (h : SlotInv st s σ tLast)
    (hnow : now - tLast ≤ END_TIMEOUT) :
    SlotInv (L.foldl (fun s' ser =>
      match alookup ser s'.active with
      | some tr => if END_TIMEOUT < now - tr.lastTs then expire now s' ser else s'
      | none => s') st) s σ tLast := by
  induction L generalizing st with
  | nil => exact h
  | cons ser L' ih =>
    simp only [List.foldl_cons]
    apply ih
    obtain ⟨hmap, ⟨tr, hact, htr⟩, hser⟩ := h
    by_cases hsσ : ser = σ
    · subst hsσ
      simp only [hact]
      rw [if_neg (by simp only [not_lt]; linarith)]
      exact ⟨hmap, ⟨tr, hact, htr⟩, hser⟩
    · cases ha : alookup ser st.active with
      | none =>
        simp only [ha]
        exact ⟨hmap, ⟨tr, hact, htr⟩, hser⟩
      | some tr' =>
        simp only [ha]
        split
        · exact expire_pres now st s σ tLast ser ⟨hmap, ⟨tr, hact, htr⟩, hser⟩ hsσ
        · exact ⟨hmap, ⟨tr, hact, htr⟩, hser⟩

theorem sweep_pres (now : ℚ) (st : TrackerS) (s σ : Nat) (tLast : ℚ)
    (h : SlotInv st s σ tLast) (hnow : now - tLast ≤ END_TIMEOUT) :
    SlotInv (sweep now st) s σ tLast :=
  sweepGo_pres now (st.active.map Prod.fst) st s σ tLast h hnow

theorem update_pres (now : ℚ) (st : TrackerS) (s σ : Nat) (tLast : ℚ)
    (B : List Nat) (h : SlotInv st s σ tLast) (hle : tLast ≤ now)
    (hgap : now - tLast ≤ END_TIMEOUT) :
    SlotInv (update now st B) s σ (if s ∈ B then now else tLast) := by
  unfold update
  have h1 := foldBatch_pres now B st s σ tLast h hle
  apply sweep_pres
  · exact h1
  · split <;> [linarith; exact hgap]

/-- A well-formed continuation of a run for slot `s`: update times are
non-decreasing and every update call happens within `END_TIMEOUT` of the
slot's most recent observation (in particular consecutive observations of
`s` are at most `END_TIMEOUT` apart).  `tLast` is the time of the slot's
most recent observation so far. -/
def SlotRun (s : Nat) : ℚ → List (ℚ × List Nat) → Prop
  | _, [] => True
  | tLast, (t, B) :: rest =>
      tLast ≤ t ∧ t - tLast ≤ END_TIMEOUT ∧
      SlotRun s (if s ∈ B then t else tLast) rest

theorem run_stable (r : List (ℚ × List Nat)) (st : TrackerS) (s σ : Nat)
    (tLast : ℚ) (h : SlotInv st s σ tLast) (hr : SlotRun s tLast r) :
    alookup s (runUpdates st r).slot2ser = some σ := by
  induction r generalizing st tLast with
  | nil => exact h.1
  | cons step rest ih =>
    obtain ⟨t, B⟩ := step
    obtain ⟨h1, h2, h3⟩ := hr
    exact ih (update t st B) (if s ∈ B then t else tLast)
      (update_pres t st s σ tLast B h h1 h2) h3

theorem alookup_none_filter {α : Type} (k : Nat) (l : List (Nat × α))
    (p : Nat × α → Bool) (h : alookup k l = none) :
    alookup k (l.filter p) = none := by
  induction l with
  | nil => rfl
  | cons q rest ih =>
    obtain ⟨qk, qv⟩ := q
    unfold alookup at h
    split at h
    · exact absurd h (by simp)
    · rename_i hk
      rw [List.filter_cons]
      split
      · unfold alookup
        rw [if_neg hk]
        exact ih h
      · exact ih h

theorem nodup_keys_unique {α : Type} (l : List (Nat × α)) (k : Nat)
    (v₁ v₂ : α) (hnd : (l.map Prod.fst).Nodup)
    (h₁ : (k, v₁) ∈ l) (h₂ : (k, v₂) ∈ l) : v₁ = v₂ := by
  induction l with
  | nil => simp at h₁
  | cons q rest ih =>
    simp only [List.map_cons, List.nodup_cons] at hnd
    rcases List.mem_cons.mp h₁ with he₁ | he₁ <;>
      rcases List.mem_cons.mp h₂ with he₂ | he₂
    · rw [← he₁] at he₂
      injection he₂ with _ h
      exact h.symm
    · exact absurd (List.mem_map_of_mem Prod.fst he₂)
        (by rw [← he₁] at hnd; exact hnd.1)
    · exact absurd (List.mem_map_of_mem Prod.fst he₁)
        (by rw [← he₂] at hnd; exact hnd.1)
    · exact ih hnd.2 he₁ he₂

/-- `_expire σ` removes the serial from the live table and removes the
slot's mapping (given well-formed slot keys). -/
theorem expire_removes (now : ℚ) (st : TrackerS) (s σ : Nat) (tr : Track)
    (hact : alookup σ st.active = some tr)
    (hmap : alookup s st.slot2ser = some σ)
    (hkeys : (st.slot2ser.map Prod.fst).Nodup) :
    alookup σ (expire now st σ).active = none ∧
    alookup s (expire now st σ).slot2ser = none := by
  unfold expire
  rw [hact]
  constructor
  · exact alookup_filter_none _ _ _ (fun v _ => by simp)
  · refine alookup_filter_none _ _ _ (fun v hv => ?_)
    have : v = σ := nodup_keys_unique _ _ _ _ hkeys hv (alookup_mem _ _ _ hmap)
    simp [this]

/-- Once a serial and its slot mapping are gone, the rest of the sweep never
brings them back. -/
theorem sweepGo_absent (now : ℚ) (L : List Nat) (st : TrackerS) (σ s : Nat)
    (ha : alookup σ st.active = none) (hm : alookup s st.slot2ser = none) :
    alookup σ ((L.foldl (fun s' ser =>
      match alookup ser s'.active with
      | some tr => if END_TIMEOUT < now - tr.lastTs then expire now s' ser else s'
      | none => s') st)).active = none ∧
    alookup s ((L.foldl (fun s' ser =>
      match alookup ser s'.active with
      | some tr => if END_TIMEOUT < now - tr.lastTs then expire now s' ser else s'
      | none => s') st)).slot2ser = none := by
  induction L generalizing st with
  | nil => exact ⟨ha, hm⟩
  | cons ser L' ih =>
    simp only [List.foldl_cons]
    cases he : alookup ser st.active with
    | none => simp only [he]; exact ih st ha hm
    | some tr' =>
      simp only [he]
      split
      · apply ih
        · unfold expire
          rw [he]
          exact alookup_none_filter _ _ _ ha
        · unfold expire
          rw [he]
          exact alookup_none_filter _ _ _ hm
      · exact ih st ha hm

theorem expire_nextSerial (now : ℚ) (st : TrackerS) (ser : Nat) :
    (expire now st ser).nextSerial = st.nextSerial := by
  unfold expire
  cases alookup ser st.active <;> rfl

theorem sweepGo_nextSerial (now : ℚ) (L : List Nat) (st : TrackerS) :
    ((L.foldl (fun s' ser =>
      match alookup ser s'.active with
      | some tr => if END_TIMEOUT < now - tr.lastTs then expire now s' ser else s'
      | none => s') st)).nextSerial = st.nextSerial := by
  induction L generalizing st with
  | nil => rfl
  | cons ser L' ih =>
    simp only [List.foldl_cons]
    cases he : alookup ser st.active with
    | none => simp only [he]; exact ih st
    | some tr' =>
      simp only [he]
      split
      · rw [ih, expire_nextSerial]
      · exact ih st

/-- The sweep of `Tracker.update` expires a stale serial: if `σ` is silent
for more than `END_TIMEOUT` when the sweep runs, it disappears from the live
table together with its slot mapping. -/
theorem sweepGo_removes (now : ℚ) (L : List Nat) (st : TrackerS)
    (σ s : Nat) (tr : Track) (hin : σ ∈ L)
    (hact : alookup σ st.active = some tr)
    (hstale : END_TIMEOUT < now - tr.lastTs)
    (hmap : alookup s st.slot2ser = some σ)
    (hkeys : (st.slot2ser.map Prod.fst).Nodup) :
    alookup σ ((L.foldl (fun s' ser =>
      match alookup ser s'.active with
      | some tr => if END_TIMEOUT < now - tr.lastTs then expire now s' ser else s'
      | none => s') st)).active = none ∧
    alookup s ((L.foldl (fun s' ser =>
      match alookup ser s'.active with
      | some tr => if END_TIMEOUT < now - tr.lastTs then expire now s' ser else s'
      | none => s') st)).slot2ser = none := by
  induction L generalizing st with
  | nil => simp at hin
  | cons ser L' ih =>
    simp only [List.foldl_cons]
    by_cases hsσ : ser = σ
    · subst hsσ
      simp only [hact]
      rw [if_pos hstale]
      obtain ⟨ha', hm'⟩ := expire_removes now st s ser tr hact hmap hkeys
      exact sweepGo_absent now L' _ ser s ha' hm'
    · have hin' : σ ∈ L' := by
        rcases List.mem_cons.mp hin with h | h
        · exact absurd h.symm hsσ
        · exact h
      cases he : alookup ser st.active with
      | none => simp only [he]; exact ih st hin' hact hmap hkeys
      | some tr' =>
        simp only [he]
        split
        · apply ih _ hin'
          · unfold expire
            rw [he]
            exact alookup_filter _ _ _ _ hact (by simp [Ne.symm hsσ])
          · unfold expire
            rw [he]
            exact alookup_filter _ _ _ _ hmap (by simp [Ne.symm hsσ])
          · unfold expire
            rw [he]
            exact List.Nodup.sublist
              (List.Sublist.map _ (List.filter_sublist _)) hkeys
        · exact ih st hin' hact hmap hkeys

/-- Well-formedness of reachable tracker states: the slot map and live table
have no duplicate keys, and every serial recorded anywhere in the state —
slot map, live table, recent list, index rows — is below the serial
counter. -/
def WF (st : TrackerS) : Prop :=
  (st.slot2ser.map Prod.fst).Nodup ∧
  (st.active.map Prod.fst).Nodup ∧
  (∀ p ∈ st.slot2ser, p.2 < st.nextSerial) ∧
  (∀ p ∈ st.active, p.1 < st.nextSerial) ∧
  (∀ q ∈ st.recent, q.serial < st.nextSerial) ∧
  (∀ row ∈ st.index, row.serial < st.nextSerial)

theorem setAssoc_keys_mem {α : Type} (k x : Nat) (v : α) (l : List (Nat × α)) :
    x ∈ (setAssoc k v l).map Prod.fst ↔ x = k ∨ x ∈ l.map Prod.fst := by
  induction l with
  | nil => simp [setAssoc]
  | cons q rest ih =>
    obtain ⟨qk, qv⟩ := q
    unfold setAssoc
    split
    · rename_i hqk
      subst hqk
      simp
    · simp only [List.map_cons, List.mem_cons, ih]
      tauto

theorem setAssoc_keys_nodup {α : Type} (k : Nat) (v : α) (l : List (Nat × α))
    (h : (l.map Prod.fst).Nodup) :
    ((setAssoc k v l).map Prod.fst).Nodup := by
  induction l with
  | nil => simp [setAssoc]
  | cons q rest ih =>
    obtain ⟨qk, qv⟩ := q
    simp only [List.map_cons, List.nodup_cons] at h
    unfold setAssoc
    split
    · rename_i hqk
      subst hqk
      simp only [List.map_cons, List.nodup_cons]
      exact h
    · rename_i hqk
      simp only [List.map_cons, List.nodup_cons]
      refine ⟨?_, ih h.2⟩
      rw [setAssoc_keys_mem]
      rintro (hc | hc)
      · exact hqk hc
      · exact h.1 hc

theorem setAssoc_mem {α : Type} (k : Nat) (v : α) (l : List (Nat × α))
    (p : Nat × α) (h : p ∈ setAssoc k v l) : p = (k, v) ∨ p ∈ l := by
  induction l with
  | nil => simp only [setAssoc, List.mem_singleton] at h; exact Or.inl h
  | cons q rest ih =>
    unfold setAssoc at h
    split at h
    · rcases List.mem_cons.mp h with h | h
      · exact Or.inl h
      · exact Or.inr (List.mem_cons_of_mem _ h)
    · rcases List.mem_cons.mp h with h | h
      · exact Or.inr (h ▸ List.mem_cons_self _ _)
      · rcases ih h with h | h
        · exact Or.inl h
        · exact Or.inr (List.mem_cons_of_mem _ h)

theorem finalizeRow_mem (ser : Nat) (fs ls d : Int) (l : List IndexRow)
    (r' : IndexRow) (h : r' ∈ finalizeRow ser fs ls d l) :
    r' ∈ l ∨ r'.serial = ser := by
  induction l with
  | nil => simp [finalizeRow] at h
  | cons r rs ih =>
    unfold finalizeRow at h
    split at h
    · rename_i hm
      rcases List.mem_cons.mp h with h | h
      · right
        rw [h]
        exact hm.1
      · exact Or.inl (List.mem_cons_of_mem _ h)
    · rcases List.mem_cons.mp h with h | h
      · exact Or.inl (h ▸ List.mem_cons_self _ _)
      · rcases ih h with h | h
        · exact Or.inl (List.mem_cons_of_mem _ h)
        · exact Or.inr h

theorem newTrack_WF (now : ℚ) (st : TrackerS) (slot : Nat) (h : WF st) :
    WF (newTrack now st slot) := by
  obtain ⟨h1, h2, h3, h4, h5, h6⟩ := h
  refine ⟨?_, ?_, ?_, ?_, ?_, ?_⟩
  · exact setAssoc_keys_nodup _ _ _ h1
  · exact setAssoc_keys_nodup _ _ _ h2
  · intro p hp
    rcases setAssoc_mem _ _ _ _ hp with rfl | hp
    · show st.nextSerial < st.nextSerial + 1; omega
    · have := h3 p hp
      show p.2 < st.nextSerial + 1
      omega
  · intro p hp
    rcases setAssoc_mem _ _ _ _ hp with rfl | hp
    · show st.nextSerial < st.nextSerial + 1; omega
    · have := h4 p hp
      show p.1 < st.nextSerial + 1
      omega
  · intro q hq
    have := h5 q hq
    show q.serial < st.nextSerial + 1
    omega
  · intro row hrow
    rcases List.mem_append.mp hrow with hrow | hrow
    · have := h6 row hrow
      show row.serial < st.nextSerial + 1
      omega
    · rw [List.mem_singleton.mp hrow]
      show st.nextSerial < st.nextSerial + 1
      omega

theorem updateSlot_WF (now : ℚ) (st : TrackerS) (slot : Nat) (h : WF st) :
    WF (updateSlot now st slot) := by
  cases hm : alookup slot st.slot2ser with
  | none =>
    simp only [updateSlot, hm]
    exact newTrack_WF now st slot h
  | some ser =>
    cases ha : alookup ser st.active with
    | none =>
      simp only [updateSlot, hm, ha]
      exact newTrack_WF now st slot h
    | some tr =>
      simp only [updateSlot, hm, ha]
      obtain ⟨h1, h2, h3, h4, h5, h6⟩ := h
      refine ⟨h1, setAssoc_keys_nodup _ _ _ h2, h3, ?_, h5, h6⟩
      intro p hp
      rcases setAssoc_mem _ _ _ _ hp with rfl | hp
      · exact h3 _ (alookup_mem _ _ _ hm)
      · exact h4 p hp

theorem expire_WF (now : ℚ) (st : TrackerS) (ser : Nat) (h : WF st) :
    WF (expire now st ser) := by
  cases ha : alookup ser st.active with
  | none =>
    simp only [expire, ha]
    exact h
  | some tr =>
    obtain ⟨h1, h2, h3, h4, h5, h6⟩ := h
    have hserlt : ser < st.nextSerial := h4 _ (alookup_mem _ _ _ ha)
    simp only [expire, ha]
    refine ⟨?_, ?_, ?_, ?_, ?_, ?_⟩
    · exact List.Nodup.sublist (List.Sublist.map _ (List.filter_sublist _)) h1
    · exact List.Nodup.sublist (List.Sublist.map _ (List.filter_sublist _)) h2
    · exact fun p hp => h3 p (List.mem_of_mem_filter hp)
    · exact fun p hp => h4 p (List.mem_of_mem_filter hp)
    · intro q hq
      have hq2 : q ∈ RecentRec.mk ser tr.first now :: st.recent := by
        split at hq
        · exact (List.dropLast_sublist _).subset hq
        · exact hq
      rcases List.mem_cons.mp hq2 with rfl | hq2
      · exact hserlt
      · exact h5 q hq2
    · intro row hrow
      rcases finalizeRow_mem _ _ _ _ _ _ hrow with hrow | hrow
      · exact h6 row hrow
      · rw [hrow]
        exact hserlt

theorem sweepGo_WF (now : ℚ) (L : List Nat) (st : TrackerS) (h : WF st) :
    WF ((L.foldl (fun s' ser =>
      match alookup ser s'.active with
      | some tr => if END_TIMEOUT < now - tr.lastTs then expire now s' ser else s'
      | none => s') st)) := by
  induction L generalizing st with
  | nil => exact h
  | cons ser L' ih =>
    simp only [List.foldl_cons]
    apply ih
    cases ha : alookup ser st.active with
    | none => simp only [ha]; exact h
    | some tr =>
      simp only [ha]
      split
      · exact expire_WF now st ser h
      · exact h

theorem foldBatch_WF (now : ℚ) (B : List Nat) (st : TrackerS) (h : WF st) :
    WF (B.foldl (updateSlot now) st) := by
  induction B generalizing st with
  | nil => exact h
  | cons b B' ih =>
    simp only [List.foldl_cons]
    exact ih _ (updateSlot_WF now st b h)

theorem update_WF (now : ℚ) (st : TrackerS) (B : List Nat) (h : WF st) :
    WF (update now st B) :=
  sweepGo_WF now _ _ (foldBatch_WF now B st h)

theorem initState_WF (n : Nat) : WF (initState n) := by
  refine ⟨?_, ?_, ?_, ?_, ?_, ?_⟩ <;> simp [initState]

/-- **C3 (amended).** (1) For a fixed slot receiving a sequence of
observations in which every inter-observation gap is at most `END_TIMEOUT`
(and every update call falls within `END_TIMEOUT` of the slot's latest
observation), the serial assigned to that slot never changes.  (2) If the
track *has been expired* — some update call ran more than `END_TIMEOUT`
after the slot's last observation — then the next observation on that slot
is assigned the serial counter's current value, which is strictly greater
than every serial recorded anywhere in the state (in particular every serial
ever assigned in the run, all of which have index rows).  (3)–(4) That
bound is an invariant of `update` and holds initially.  The original
claim's unconditional "after a gap > END_TIMEOUT the engine assigns a new
serial" is refuted by `claim_C3_cex`: observations are processed *before*
the expiry sweep, so a late observation with no intervening update call
refreshes and reuses the old serial. -/
theorem claim_C3_serials :
    (∀ (st : TrackerS) (s σ : Nat) (tLast : ℚ) (r : List (ℚ × List Nat)),
      SlotInv st s σ tLast → SlotRun s tLast r →
      alookup s (runUpdates st r).slot2ser = some σ) ∧
    (∀ (st : TrackerS) (s σ : Nat) (tr : Track) (u t : ℚ),
      WF st →
      alookup s st.slot2ser = some σ →
      alookup σ st.active = some tr →
      END_TIMEOUT < u - tr.lastTs →
      alookup σ (update u st []).active = none ∧
      (update u st []).nextSerial = st.nextSerial ∧
      alookup s (update t (update u st []) [s]).slot2ser =
        some st.nextSerial ∧
      (∀ row ∈ st.index, row.serial < st.nextSerial) ∧
      (∀ q ∈ st.recent, q.serial < st.nextSerial)) ∧
    (∀ (now : ℚ) (st : TrackerS) (B : List Nat), WF st → WF (update now st B)) ∧
    (∀ n : Nat, WF (initState n)) := by
  refine ⟨fun st s σ tLast r h hr => run_stable r st s σ tLast h hr, ?_,
    fun now st B h => update_WF now st B h, initState_WF⟩
  intro st s σ tr u t hWF hmap hact hstale
  have hσL : σ ∈ st.active.map Prod.fst :=
    List.mem_map_of_mem Prod.fst (alookup_mem _ _ _ hact)
  have hrem := sweepGo_removes u (st.active.map Prod.fst) st σ s tr hσL
    hact hstale hmap hWF.1
  have hns : (update u st []).nextSerial = st.nextSerial := by
    unfold update
    simp only [List.foldl_nil]
    exact sweepGo_nextSerial u _ st
  have hu_eq : update u st [] = sweep u st := by
    unfold update
    simp only [List.foldl_nil]
  have hrem1 : alookup σ (sweep u st).active = none := hrem.1
  have hrem2 : alookup s (sweep u st).slot2ser = none := hrem.2
  refine ⟨by rw [hu_eq]; exact hrem1, hns, ?_, hWF.2.2.2.2.2, hWF.2.2.2.2.1⟩
  have hstep : update t (update u st []) [s] =
      sweep t (newTrack t (update u st []) s) := by
    unfold update
    simp only [List.foldl_cons, List.foldl_nil, updateSlot]
    rw [hrem2]
  have hinv : SlotInv (newTrack t (update u st []) s) s
      (update u st []).nextSerial t := by
    unfold newTrack
    refine ⟨alookup_setAssoc_self _ _ _,
      ⟨Track.mk t t, alookup_setAssoc_self _ _ _, le_refl t⟩, ?_⟩
    show (update u st []).nextSerial < (update u st []).nextSerial + 1
    omega
  have hfin := sweep_pres t (newTrack t (update u st []) s) s
    (update u st []).nextSerial t hinv
    (by norm_num [END_TIMEOUT])
  rw [hstep, ← hns]
  exact hfin.1

/-- A reachable state with one live track: slot 1 carries serial 1, created
at time 0, serial counter at 2. -/
def stC3 : TrackerS :=
  TrackerS.mk [(1, 1)] [(1, Track.mk 0 0)] [] 2 [IndexRow.mk 0 1 0 0] []

/-- Witness for `claim_C3_serials` at concrete states: a follow-up
observation at time 2 keeps serial 1; an empty update at time 10 expires the
track and the next observation (time 11) gets the strictly greater serial 2;
`update` preserves well-formedness on a concrete state; the initial state is
well-formed. -/
theorem claim_C3_serials_witness :
    alookup 1 (runUpdates stC3 [(2, [1])]).slot2ser = some 1 ∧
    (alookup 1 (update 10 stC3 []).active = none ∧
      (update 10 stC3 []).nextSerial = 2 ∧
      alookup 1 (update 11 (update 10 stC3 []) [1]).slot2ser = some 2 ∧
      (∀ row ∈ stC3.index, row.serial < 2) ∧
      (∀ q ∈ stC3.recent, q.serial < 2)) ∧
    WF (update 5 (initState 3) [2]) ∧
    WF (initState 7) := by
  refine ⟨?_, ?_, ?_, ?_⟩
  · exact claim_C3_serials.1 stC3 1 1 0 [(2, [1])]
      ⟨rfl, ⟨Track.mk 0 0, rfl, le_refl 0⟩, by norm_num [stC3]⟩
      ⟨by norm_num, by norm_num [END_TIMEOUT], trivial⟩
  · exact claim_C3_serials.2.1 stC3 1 1 (Track.mk 0 0) 10 11
      (by refine ⟨?_, ?_, ?_, ?_, ?_, ?_⟩ <;> simp [stC3])
      rfl rfl (by norm_num [END_TIMEOUT])
  · exact claim_C3_serials.2.2.1 5 (initState 3) [2] (initState_WF 3)
  · exact claim_C3_serials.2.2.2 7

/-- **C3 counterexample.** Two observations on slot 1 at times 0 and 10 —
a gap of 10 s, far beyond `END_TIMEOUT` — with no update call in between:
the engine *reuses* serial 1 (the slot still maps to serial 1 and the serial
counter has not advanced), because `Tracker.update` refreshes `last_ts`
before the expiry sweep runs. -/
theorem claim_C3_cex :
    END_TIMEOUT < (10 : ℚ) - 0 ∧
    alookup 1 (runUpdates (initState 1) [(0, [1]), (10, [1])]).slot2ser =
      some 1 ∧
    (runUpdates (initState 1) [(0, [1]), (10, [1])]).nextSerial = 2 := by
  refine ⟨by norm_num [END_TIMEOUT], ?_, ?_⟩ <;>
    norm_num [runUpdates, update, sweep, updateSlot, newTrack, alookup,
      setAssoc, initState, expire, END_TIMEOUT]

/-! ## Kinematics (tracking.py `Tracker.update` lines 93-105)

The floating-point arithmetic of the Python code is idealized over the
reals (`math.hypot(a, b)` = `√(a² + b²)`). -/

/-- The kinematics block of `Tracker.update` for one observation `(x, y)` at
monotonic time `now`, given the stored previous sample `(px, py, pv, pt)`:
`first_point = (px == py == pv == 0.0)` (a chained comparison);
`dt_s = max(now_mon - pt, 1e-3)`; on the first point `v = accel = 0.0`,
otherwise `v = math.hypot(x - px, y - py) / dt_s` and
`accel = (v - pv) / dt_s`.  Returns `(v, accel)`. -/
noncomputable def kinematics (px py pv pt x y now : ℝ) : ℝ × ℝ :=
  open Classical in
  if px = py ∧ py = pv ∧ pv = 0 then (0, 0)
  else
    let dts := max (now - pt) (1 / 1000)
    let v := Real.sqrt ((x - px) ^ 2 + (y - py) ^ 2) / dts
    (v, (v - pv) / dts)

/-- `Tracker._open_verbose` seeds `hist = (0.0, 0.0, 0.0, time.monotonic())`
— the sentinel previous sample of a newborn track. -/
def histInit (t : ℝ) : ℝ × ℝ × ℝ × ℝ := (0, 0, 0, t)

/-- `Tracker.update` threaded over successive observations of one track:
each observation `(x, y, now)` reports `(v, accel)` and stores
`hist = (x_mm, y_mm, v, now_mon)` (line 115). -/
noncomputable def kinRun : (ℝ × ℝ × ℝ × ℝ) → List (ℝ × ℝ × ℝ) → List (ℝ × ℝ)
  | _, [] => []
  | (px, py, pv, pt), (x, y, now) :: rest =>
      kinematics px py pv pt x y now ::
        kinRun (x, y, (kinematics px py pv pt x y now).1, now) rest

theorem sqrt_million : Real.sqrt 1000000 = 1000 := by
  rw [show (1000000 : ℝ) = 1000 ^ 2 by norm_num]
  exact Real.sqrt_sq (by norm_num)

/-- **C10 (confirmed).** `Tracker.update` decides that an observation is a
track's "first sample" exactly when the stored previous sample equals
`(x = 0, y = 0, speed = 0)` — the chained test `px == py == pv == 0.0`
holds iff `(px, py, pv) = (0, 0, 0)`, the sentinel seeded at track
creation.  Consequently any observation whose immediately preceding stored
sample is the origin with zero speed is reported with `speed = 0` and
`accel = 0`, regardless of its displacement and elapsed time. -/
theorem claim_C10_sentinel :
    (∀ t : ℝ, histInit t = (0, 0, 0, t)) ∧
    (∀ px py pv : ℝ,
      (px = py ∧ py = pv ∧ pv = 0) ↔ (px, py, pv) = ((0 : ℝ), 0, 0)) ∧
    (∀ pt x y now : ℝ, kinematics 0 0 0 pt x y now = (0, 0)) := by
  refine ⟨fun t => rfl, fun px py pv => ?_, fun pt x y now => ?_⟩
  · constructor
    · rintro ⟨h1, h2, h3⟩
      subst h3; subst h2; subst h1
      rfl
    · intro h
      injection h with h1 h
      injection h with h2 h3
      subst h1; subst h2; subst h3
      exact ⟨rfl, rfl, rfl⟩
  · unfold kinematics
    rw [if_pos ⟨rfl, rfl, rfl⟩]

/-- **C1 (amended).** For every track, the first observation processed by
`Tracker.update` reports `speed = 0` and `accel = 0`.  For a track whose two
consecutive observations are 1 second apart at `(0, 1)` then `(1000, 1)`
millimetres — positions distinct from the origin sentinel — the second
observation reports speed exactly `1000 mm/s` (euclidean distance / dt) and
accel `1000 mm/s²`.  With zero elapsed time the divisor is clamped below at
1 ms: an observation 1000 mm away from a non-sentinel previous sample with
`now = pt` reports `1000 / 0.001 = 10⁶ mm/s`.  (The original claim's
instance at `(0,0)` then `(1000,0)` is refuted by `claim_C1_cex`: a stored
sample at the origin with zero speed is indistinguishable from the
first-sample sentinel.) -/
theorem claim_C1_kinematics :
    (∀ x y t0 t1 : ℝ, kinRun (histInit t0) [(x, y, t1)] = [(0, 0)]) ∧
    (∀ t : ℝ, kinRun (histInit 0) [(0, 1, t), (1000, 1, t + 1)] =
      [(0, 0), (1000, 1000)]) ∧
    (∀ t : ℝ, kinRun (0, 1, 5, t) [(1000, 1, t)] = [(1000000, 999995000)]) := by
  have hfp : ∀ pt x y now : ℝ, kinematics 0 0 0 pt x y now = (0, 0) :=
    fun pt x y now => by unfold kinematics; rw [if_pos ⟨rfl, rfl, rfl⟩]
  have hsec : ∀ t : ℝ, kinematics 0 1 0 t 1000 1 (t + 1) = (1000, 1000) := by
    intro t
    unfold kinematics
    rw [if_neg (by rintro ⟨h, -⟩; norm_num at h)]
    have hd : max ((t + 1) - t) (1 / 1000 : ℝ) = 1 := by
      rw [show (t + 1) - t = (1 : ℝ) by ring]
      rw [max_eq_left (by norm_num)]
    have hq : ((1000 : ℝ) - 0) ^ 2 + (1 - 1) ^ 2 = 1000000 := by norm_num
    simp only [hd, hq, sqrt_million]
    norm_num
  have hclamp : ∀ t : ℝ, kinematics 0 1 5 t 1000 1 t = (1000000, 999995000) := by
    intro t
    unfold kinematics
    rw [if_neg (by rintro ⟨h, -⟩; norm_num at h)]
    have hd : max (t - t) (1 / 1000 : ℝ) = 1 / 1000 := by
      rw [show t - t = (0 : ℝ) by ring]
      rw [max_eq_right (by norm_num)]
    have hq : ((1000 : ℝ) - 0) ^ 2 + (1 - 1) ^ 2 = 1000000 := by norm_num
    simp only [hd, hq, sqrt_million]
    norm_num
  refine ⟨fun x y t0 t1 => ?_, fun t => ?_, fun t => ?_⟩
  · simp only [histInit, kinRun, hfp]
  · simp only [histInit, kinRun, hfp, hsec]
  · simp only [kinRun, hclamp]

/-- **C1 counterexample.** A track created at time 0 whose first observation
is `(0, 0)` at time 1 and whose second observation is `(1000, 0)` at time 2
— two consecutive observations exactly 1 second apart at `(0,0)` then
`(1000,0)` — reports speed 0 (not 1000) for the *second* observation as
well: after the first observation the stored sample `(0, 0, 0)` equals the
first-sample sentinel, so the kinematics code treats the second observation
as a first point. -/
theorem claim_C1_cex :
    kinRun (histInit 0) [(0, 0, 1), (1000, 0, 2)] = [(0, 0), (0, 0)] ∧
    ((0 : ℝ), (0 : ℝ)) ≠ ((1000 : ℝ), (1000 : ℝ)) := by
  constructor
  · have hfp : ∀ pt x y now : ℝ, kinematics 0 0 0 pt x y now = (0, 0) :=
      fun pt x y now => by unfold kinematics; rw [if_pos ⟨rfl, rfl, rfl⟩]
    simp only [histInit, kinRun, hfp]
  · intro h
    injection h with h1 _
    norm_num at h1

/-! ## Serial resync loop (serial_reader.py `RadarSerial._loop`)

The background reader accumulates bytes; each loop iteration appends one
read's bytes and performs one decode attempt: find the first header magic
(`buf.find(HDR)`); if absent keep only the last 3 bytes; if present but
fewer than 30 bytes remain, wait; else check the 30-byte candidate's footer
— on success deliver the parsed frame to the callback and drop through the
end of the frame, on failure delete the single byte at the header position
(`del buf[idx]`) and rescan. -/

/-- Index of the first occurrence of the header magic in the buffer
(`buf.find(self.HDR)`); `none` when no full occurrence is present. -/
def findHdr : List Nat → Option Nat
  | [] => none
  | b :: rest =>
    if (b :: rest).take 4 = HDR then some 0
    else (findHdr rest).map (fun i => i + 1)

/-- One decode attempt of `RadarSerial._loop` on the current buffer:
returns the batch delivered to the callback (if any) and the new buffer. -/
def loopStep (buf : List Nat) : Option (List Obs) × List Nat :=
  match findHdr buf with
  | none => (none, if 3 < buf.length then buf.drop (buf.length - 3) else buf)
  | some idx =>
    if buf.length < idx + 30 then (none, buf)
    else
      let frame := (buf.drop idx).take 30
      if frame.drop 28 = FTR then (some (parseSerial frame), buf.drop (idx + 30))
      else (none, buf.eraseIdx idx)

/-- The reader loop over a chunked byte stream: each iteration appends the
next read's bytes and performs one decode attempt.  Returns the final
buffer and the number of callback deliveries. -/
def runChunks : List (List Nat) → List Nat → List Nat × Nat
  | [], buf => (buf, 0)
  | c :: cs, buf =>
    let r := loopStep (buf ++ c)
    let rest := runChunks cs r.2
    (rest.1, (if r.1.isSome then 1 else 0) + rest.2)

/-- After the stream ends the loop keeps iterating on empty reads; `drain`
performs decode attempts until the buffer is quiescent (fuel-bounded;
fuel `buf.length` reaches quiescence, see `drain_quiescent`). -/
def drain : Nat → List Nat → List Nat × Nat
  | 0, buf => (buf, 0)
  | fuel + 1, buf =>
    match loopStep buf with
    | (none, buf') => if buf' = buf then (buf, 0) else drain fuel buf'
    | (some _, buf') =>
      let r := drain fuel buf'
      (r.1, r.2 + 1)

/-- Total number of callback deliveries for a chunked stream: the chunked
phase followed by empty reads to quiescence. -/
def totalBatches (cs : List (List Nat)) : Nat :=
  let r := runChunks cs []
  r.2 + (drain r.1.length r.1).2

/-- The header magic occurs at position `k` of the buffer. -/
def hasHdrAt (buf : List Nat) (k : Nat) : Prop := (buf.drop k).take 4 = HDR

theorem findHdr_isSome_of (buf : List Nat) (k : Nat) (h : hasHdrAt buf k) :
    (findHdr buf).isSome := by
  induction buf generalizing k with
  | nil => simp [hasHdrAt, HDR] at h
  | cons b rest ih =>
    unfold findHdr
    split
    · rfl
    · rename_i hne
      cases k with
      | zero => exact absurd h hne
      | succ j =>
        have := ih j h
        cases hf : findHdr rest with
        | none => rw [hf] at this; exact absurd this (by simp)
        | some i => simp [hf]

theorem findHdr_min (buf : List Nat) (i k : Nat) (hf : findHdr buf = some i)
    (h : hasHdrAt buf k) : i ≤ k := by
  induction buf generalizing i k with
  | nil => simp [findHdr] at hf
  | cons b rest ih =>
    unfold findHdr at hf
    split at hf
    · injection hf with hf
      omega
    · rename_i hne
      cases hfr : findHdr rest with
      | none => rw [hfr] at hf; simp at hf
      | some j =>
        rw [hfr] at hf
        simp only [Option.map_some'] at hf
        injection hf with hf
        cases k with
        | zero => exact absurd h hne
        | succ m =>
          have := ih j m hfr h
          omega

/-- The byte sliceS `s[q:d]` of the stream. -/
def sliceS (s : List Nat) (q d : Nat) : List Nat := (s.drop q).take (d - q)

theorem sliceS_length (s : List Nat) (q d : Nat) (hq : q ≤ d)
    (hd : d ≤ s.length) : (sliceS s q d).length = d - q := by
  unfold sliceS
  rw [List.length_take, List.length_drop]
  omega

theorem sliceS_append (s : List Nat) (q d d' : Nat) (h1 : q ≤ d) (h2 : d ≤ d') :
    sliceS s q d ++ sliceS s d d' = sliceS s q d' := by
  unfold sliceS
  have hdq : s.drop d = (s.drop q).drop (d - q) := by
    rw [List.drop_drop]
    congr 1
    omega
  rw [hdq, ← List.take_add]
  congr 1
  omega

theorem sliceS_drop30 (s : List Nat) (q d : Nat) :
    (sliceS s q d).drop 30 = sliceS s (q + 30) d := by
  unfold sliceS
  rw [List.drop_take, List.drop_drop]
  congr 1

/-- The delivered part of the stream from position `q` onward sits
uncorrupted as the suffix of the buffer starting at some index `k`. -/
def MarkerAt (s : List Nat) (q d : Nat) (buf : List Nat) : Prop :=
  ∃ k, k + (d - q) = buf.length ∧ buf.drop k = sliceS s q d

theorem loopStep_none (buf : List Nat) (h : findHdr buf = none) :
    loopStep buf =
      (none, if 3 < buf.length then buf.drop (buf.length - 3) else buf) := by
  simp only [loopStep, h]

theorem loopStep_wait (buf : List Nat) (idx : Nat)
    (h : findHdr buf = some idx) (hlt : buf.length < idx + 30) :
    loopStep buf = (none, buf) := by
  simp only [loopStep, h]
  rw [if_pos hlt]

theorem loopStep_emit (buf : List Nat) (idx : Nat)
    (h : findHdr buf = some idx) (hge : idx + 30 ≤ buf.length)
    (hok : ((buf.drop idx).take 30).drop 28 = FTR) :
    loopStep buf =
      (some (parseSerial ((buf.drop idx).take 30)), buf.drop (idx + 30)) := by
  simp only [loopStep, h]
  rw [if_neg (Nat.not_lt.mpr hge), if_pos hok]

theorem loopStep_erase (buf : List Nat) (idx : Nat)
    (h : findHdr buf = some idx) (hge : idx + 30 ≤ buf.length)
    (hbad : ¬((buf.drop idx).take 30).drop 28 = FTR) :
    loopStep buf = (none, buf.eraseIdx idx) := by
  simp only [loopStep, h]
  rw [if_neg (Nat.not_lt.mpr hge), if_neg hbad]

theorem marker_hdr (s : List Nat) (q d : Nat) (fm buf : List Nat) (k : Nat)
    (hfm : (s.drop q).take 30 = fm) (hhdr : fm.take 4 = HDR)
    (h4 : 4 ≤ d - q) (hsuf : buf.drop k = sliceS s q d) :
    hasHdrAt buf k := by
  unfold hasHdrAt
  rw [hsuf]
  unfold sliceS
  rw [List.take_take, min_eq_left h4, ← hhdr, ← hfm, List.take_take]
  norm_num

theorem marker_cand (s : List Nat) (q d : Nat) (fm buf : List Nat) (k : Nat)
    (hfm : (s.drop q).take 30 = fm) (h30 : 30 ≤ d - q)
    (hsuf : buf.drop k = sliceS s q d) :
    (buf.drop k).take 30 = fm := by
  rw [hsuf]
  unfold sliceS
  rw [List.take_take, min_eq_left h30, hfm]

theorem marker_trim (s : List Nat) (q d : Nat) (fm buf : List Nat) (k : Nat)
    (hfm : (s.drop q).take 30 = fm) (hhdr : fm.take 4 = HDR)
    (hk : k + (d - q) = buf.length) (hsuf : buf.drop k = sliceS s q d)
    (hnone : findHdr buf = none) :
    MarkerAt s q d (if 3 < buf.length then buf.drop (buf.length - 3) else buf) := by
  have hd3 : d - q ≤ 3 := by
    by_contra hgt
    have hs := findHdr_isSome_of buf k
      (marker_hdr s q d fm buf k hfm hhdr (by omega) hsuf)
    rw [hnone] at hs
    exact absurd hs (by simp)
  split
  · rename_i h3
    refine ⟨k - (buf.length - 3), ?_, ?_⟩
    · rw [List.length_drop]
      omega
    · rw [List.drop_drop,
        show buf.length - 3 + (k - (buf.length - 3)) = k by omega]
      exact hsuf
  · exact ⟨k, hk, hsuf⟩

theorem marker_erase (s : List Nat) (q d : Nat) (fm buf : List Nat)
    (k idx : Nat) (hfm : (s.drop q).take 30 = fm) (hvm : ValidFrame fm)
    (hk : k + (d - q) = buf.length)
    (hsuf : buf.drop k = sliceS s q d) (hfind : findHdr buf = some idx)
    (hcomp : idx + 30 ≤ buf.length)
    (hbad : ¬((buf.drop idx).take 30).drop 28 = FTR) :
    idx < k ∧ MarkerAt s q d (buf.eraseIdx idx) := by
  have hidxk : idx < k := by
    by_cases h4 : 4 ≤ d - q
    · have hmin := findHdr_min buf idx k hfind
        (marker_hdr s q d fm buf k hfm hvm.2.1 h4 hsuf)
      rcases Nat.lt_or_ge (d - q) 30 with h30 | h30
      · rcases Nat.eq_or_lt_of_le hmin with heq | hlt
        · omega
        · exact hlt
      · rcases Nat.eq_or_lt_of_le hmin with heq | hlt
        · exfalso
          subst heq
          rw [marker_cand s q d fm buf idx hfm h30 hsuf] at hbad
          exact hbad hvm.2.2
        · exact hlt
    · omega
  refine ⟨hidxk, k - 1, ?_, ?_⟩
  · rw [List.length_eraseIdx_of_lt (by omega)]
    omega
  · rw [List.eraseIdx_eq_take_drop_succ]
    have hlt : (buf.take idx).length = idx := by
      rw [List.length_take]
      omega
    rw [show k - 1 = (buf.take idx).length + (k - 1 - idx) by rw [hlt]; omega,
      List.drop_append, List.drop_drop,
      show idx + 1 + (k - 1 - idx) = k by omega]
    exact hsuf

theorem marker_emit_far (s : List Nat) (q d : Nat) (buf : List Nat)
    (k idx : Nat) (hk : k + (d - q) = buf.length)
    (hsuf : buf.drop k = sliceS s q d) (hle : idx + 30 ≤ k) :
    MarkerAt s q d (buf.drop (idx + 30)) := by
  refine ⟨k - (idx + 30), ?_, ?_⟩
  · rw [List.length_drop]
    omega
  · rw [List.drop_drop, show idx + 30 + (k - (idx + 30)) = k by omega]
    exact hsuf

/-- Invariant of the resync-loop run on the stream
`s = garbage ++ f1 ++ f2` (`q1 = garbage.length`), after `d` stream bytes
have been read and `n` batches delivered: either both of the two guaranteed
batches are out; or one is out and the second frame has not finished…
precisely, one of: (i) `2 ≤ n`; (ii) one batch is out and the second frame
region has not started arriving; (iii) one batch is out and the delivered
part of the second frame sits uncorrupted as a suffix of the buffer;
(iv) the first frame region has not started arriving; (v) the delivered
part of the stream from the first frame onward sits uncorrupted as a suffix
of the buffer. -/
def LoopInv (s : List Nat) (q1 : Nat) (n : Nat) (buf : List Nat) (d : Nat) : Prop :=
  2 ≤ n ∨
  (1 ≤ n ∧ d ≤ q1 + 30) ∨
  (1 ≤ n ∧ q1 + 30 < d ∧ MarkerAt s (q1 + 30) d buf) ∨
  d ≤ q1 ∨
  (q1 < d ∧ MarkerAt s q1 d buf)

theorem loopStep_inv (s : List Nat) (q1 : Nat) (f1 f2 : List Nat)
    (hv1 : ValidFrame f1) (hv2 : ValidFrame f2)
    (hfm1 : (s.drop q1).take 30 = f1)
    (hfm2 : (s.drop (q1 + 30)).take 30 = f2)
    (n : Nat) (buf : List Nat) (d : Nat)
    (hinv : LoopInv s q1 n buf d) :
    LoopInv s q1 (n + if (loopStep buf).1.isSome then 1 else 0) (loopStep buf).2 d := by
  rcases hinv with h2 | ⟨hn1, hdB⟩ | ⟨hn1, hdC, k2, hk2, hsuf2⟩ | hdD |
    ⟨hdE, k1, hk1, hsuf1⟩
  · exact Or.inl (by omega)
  · exact Or.inr (Or.inl ⟨by omega, hdB⟩)
  · -- phase (iii): marker for the second frame at `k2`
    cases hfind : findHdr buf with
    | none =>
      rw [loopStep_none buf hfind]
      refine Or.inr (Or.inr (Or.inl ⟨by omega, hdC, ?_⟩))
      exact marker_trim s (q1 + 30) d f2 buf k2 hfm2 hv2.2.1 hk2 hsuf2 hfind
    | some idx =>
      by_cases hW : buf.length < idx + 30
      · rw [loopStep_wait buf idx hfind hW]
        exact Or.inr (Or.inr (Or.inl ⟨by omega, hdC, k2, hk2, hsuf2⟩))
      · by_cases hok : ((buf.drop idx).take 30).drop 28 = FTR
        · rw [loopStep_emit buf idx hfind (by omega) hok]
          by_cases hle : idx + 30 ≤ k2
          · exact Or.inr (Or.inr (Or.inl ⟨by omega, hdC,
              marker_emit_far s (q1 + 30) d buf k2 idx hk2 hsuf2 hle⟩))
          · exact Or.inl (by simp; exact hn1)
        · rw [loopStep_erase buf idx hfind (by omega) hok]
          obtain ⟨-, hM⟩ := marker_erase s (q1 + 30) d f2 buf k2 idx hfm2 hv2
            hk2 hsuf2 hfind (by omega) hok
          exact Or.inr (Or.inr (Or.inl ⟨by omega, hdC, hM⟩))
  · exact Or.inr (Or.inr (Or.inr (Or.inl hdD)))
  · -- phase (v): marker for the first frame at `k1`
    cases hfind : findHdr buf with
    | none =>
      rw [loopStep_none buf hfind]
      refine Or.inr (Or.inr (Or.inr (Or.inr ⟨hdE, ?_⟩)))
      exact marker_trim s q1 d f1 buf k1 hfm1 hv1.2.1 hk1 hsuf1 hfind
    | some idx =>
      by_cases hW : buf.length < idx + 30
      · rw [loopStep_wait buf idx hfind hW]
        exact Or.inr (Or.inr (Or.inr (Or.inr ⟨hdE, k1, hk1, hsuf1⟩)))
      · by_cases hok : ((buf.drop idx).take 30).drop 28 = FTR
        · rw [loopStep_emit buf idx hfind (by omega) hok]
          by_cases hle : idx + 30 ≤ k1
          · exact Or.inr (Or.inr (Or.inr (Or.inr ⟨hdE,
              marker_emit_far s q1 d buf k1 idx hk1 hsuf1 hle⟩)))
          · by_cases hdq2 : d ≤ q1 + 30
            · exact Or.inr (Or.inl ⟨by simp, hdq2⟩)
            · -- the emission consumed the first frame's region; the second
              -- frame's delivered part survives as a suffix
              have h4 : 4 ≤ d - q1 := by omega
              have hidxle : idx ≤ k1 := findHdr_min buf idx k1 hfind
                (marker_hdr s q1 d f1 buf k1 hfm1 hv1.2.1 h4 hsuf1)
              refine Or.inr (Or.inr (Or.inl ⟨by simp, by omega,
                k1 - idx, ?_, ?_⟩))
              · rw [List.length_drop]
                omega
              · rw [List.drop_drop,
                  show idx + 30 + (k1 - idx) = k1 + 30 by omega,
                  ← List.drop_drop, hsuf1, sliceS_drop30]
        · rw [loopStep_erase buf idx hfind (by omega) hok]
          obtain ⟨-, hM⟩ := marker_erase s q1 d f1 buf k1 idx hfm1 hv1
            hk1 hsuf1 hfind (by omega) hok
          exact Or.inr (Or.inr (Or.inr (Or.inr ⟨hdE, hM⟩)))

theorem deliver_inv (s : List Nat) (q1 n : Nat) (buf : List Nat) (d d' : Nat)
    (hdd : d ≤ d') (hd' : d' ≤ s.length) (hinv : LoopInv s q1 n buf d) :
    LoopInv s q1 n (buf ++ sliceS s d d') d' := by
  rcases hinv with h2 | ⟨hn1, hdB⟩ | ⟨hn1, hdC, k2, hk2, hsuf2⟩ | hdD |
    ⟨hdE, k1, hk1, hsuf1⟩
  · exact Or.inl h2
  · by_cases hB' : d' ≤ q1 + 30
    · exact Or.inr (Or.inl ⟨hn1, hB'⟩)
    · rw [show sliceS s d d' = sliceS s d (q1 + 30) ++ sliceS s (q1 + 30) d' from
        (sliceS_append s d (q1 + 30) d' hdB (by omega)).symm,
        ← List.append_assoc]
      refine Or.inr (Or.inr (Or.inl ⟨hn1, by omega,
        (buf ++ sliceS s d (q1 + 30)).length, ?_, List.drop_left _ _⟩))
      rw [List.length_append, List.length_append, List.length_append,
        sliceS_length s d (q1 + 30) hdB (by omega),
        sliceS_length s (q1 + 30) d' (by omega) hd']
  · refine Or.inr (Or.inr (Or.inl ⟨hn1, by omega, k2, ?_, ?_⟩))
    · rw [List.length_append, sliceS_length s d d' hdd hd']
      omega
    · rw [List.drop_append_of_le_length (by omega), hsuf2,
        sliceS_append s (q1 + 30) d d' (by omega) hdd]
  · by_cases hD' : d' ≤ q1
    · exact Or.inr (Or.inr (Or.inr (Or.inl hD')))
    · rw [show sliceS s d d' = sliceS s d q1 ++ sliceS s q1 d' from
        (sliceS_append s d q1 d' hdD (by omega)).symm,
        ← List.append_assoc]
      refine Or.inr (Or.inr (Or.inr (Or.inr ⟨by omega,
        (buf ++ sliceS s d q1).length, ?_, List.drop_left _ _⟩)))
      rw [List.length_append, List.length_append, List.length_append,
        sliceS_length s d q1 hdD (by omega),
        sliceS_length s q1 d' (by omega) hd']
  · refine Or.inr (Or.inr (Or.inr (Or.inr ⟨by omega, k1, ?_, ?_⟩)))
    · rw [List.length_append, sliceS_length s d d' hdd hd']
      omega
    · rw [List.drop_append_of_le_length (by omega), hsuf1,
        sliceS_append s q1 d d' (by omega) hdd]

theorem runChunks_inv (s : List Nat) (q1 : Nat) (f1 f2 : List Nat)
    (hv1 : ValidFrame f1) (hv2 : ValidFrame f2)
    (hfm1 : (s.drop q1).take 30 = f1)
    (hfm2 : (s.drop (q1 + 30)).take 30 = f2) :
    ∀ (cs : List (List Nat)) (buf : List Nat) (n d : Nat),
      cs.flatten = s.drop d → d ≤ s.length → LoopInv s q1 n buf d →
      LoopInv s q1 (n + (runChunks cs buf).2) (runChunks cs buf).1
        s.length := by
  intro cs
  induction cs with
  | nil =>
    intro buf n d hjoin hdle hinv
    have hnil : s.drop d = [] := by
      rw [← hjoin]
      rfl
    have hd : d = s.length := by
      have := List.drop_eq_nil_iff.mp hnil
      omega
    subst hd
    simpa [runChunks] using hinv
  | cons c cs' ih =>
    intro buf n d hjoin hdle hinv
    rw [List.flatten_cons] at hjoin
    have hclen : c.length + cs'.flatten.length = s.length - d := by
      have := congrArg List.length hjoin
      rw [List.length_append, List.length_drop] at this
      exact this
    have hc : c = sliceS s d (d + c.length) := by
      have h1 : (c ++ cs'.flatten).take c.length = c := List.take_left c _
      rw [hjoin] at h1
      unfold sliceS
      rw [show d + c.length - d = c.length by omega, h1]
    have hjoin' : cs'.flatten = s.drop (d + c.length) := by
      have h1 : (c ++ cs'.flatten).drop c.length = cs'.flatten := List.drop_left c _
      rw [hjoin] at h1
      rw [← h1, List.drop_drop]
    have hd'le : d + c.length ≤ s.length := by omega
    have hinv1 : LoopInv s q1 n (buf ++ c) (d + c.length) := by
      have hdel := deliver_inv s q1 n buf d (d + c.length) (by omega) hd'le hinv
      rwa [← hc] at hdel
    have hinv2 := loopStep_inv s q1 f1 f2 hv1 hv2 hfm1 hfm2 n (buf ++ c)
      (d + c.length) hinv1
    have hfinal := ih (loopStep (buf ++ c)).2
      (n + if (loopStep (buf ++ c)).1.isSome then 1 else 0)
      (d + c.length) hjoin' hd'le hinv2
    simp only [runChunks]
    rw [show n + ((if (loopStep (buf ++ c)).1.isSome then 1 else 0) +
        (runChunks cs' (loopStep (buf ++ c)).2).2) =
      n + (if (loopStep (buf ++ c)).1.isSome then 1 else 0) +
        (runChunks cs' (loopStep (buf ++ c)).2).2 by omega]
    exact hfinal

theorem drain_succ_none (fuel : Nat) (buf buf' : List Nat)
    (h : loopStep buf = (none, buf')) :
    drain (fuel + 1) buf = if buf' = buf then (buf, 0) else drain fuel buf' := by
  simp only [drain, h]

theorem drain_succ_some (fuel : Nat) (buf : List Nat) (b : List Obs)
    (buf' : List Nat) (h : loopStep buf = (some b, buf')) :
    drain (fuel + 1) buf =
      ((drain fuel buf').1, (drain fuel buf').2 + 1) := by
  simp only [drain, h]

theorem drain_inv (s : List Nat) (q1 : Nat) (f1 f2 : List Nat)
    (hv1 : ValidFrame f1) (hv2 : ValidFrame f2)
    (hfm1 : (s.drop q1).take 30 = f1)
    (hfm2 : (s.drop (q1 + 30)).take 30 = f2) :
    ∀ (fuel : Nat) (buf : List Nat) (n : Nat),
      LoopInv s q1 n buf s.length →
      LoopInv s q1 (n + (drain fuel buf).2) (drain fuel buf).1 s.length := by
  intro fuel
  induction fuel with
  | zero =>
    intro buf n h
    simpa [drain] using h
  | succ fuel ih =>
    intro buf n h
    have hstep := loopStep_inv s q1 f1 f2 hv1 hv2 hfm1 hfm2 n buf s.length h
    cases hls : loopStep buf with
    | mk o buf' =>
      rw [hls] at hstep
      cases o with
      | none =>
        rw [drain_succ_none fuel buf buf' hls]
        by_cases heq : buf' = buf
        · rw [if_pos heq]
          simpa using h
        · rw [if_neg heq]
          exact ih buf' n (by simpa using hstep)
      | some b =>
        rw [drain_succ_some fuel buf b buf' hls]
        have hrec := ih buf' (n + 1) (by simpa using hstep)
        simp only
        rw [show n + ((drain fuel buf').2 + 1) = n + 1 + (drain fuel buf').2
          by omega]
        exact hrec

theorem loopStep_dec (buf : List Nat) :
    ((loopStep buf).1 = none ∧ (loopStep buf).2 = buf) ∨
    (loopStep buf).2.length < buf.length := by
  cases hfind : findHdr buf with
  | none =>
    rw [loopStep_none buf hfind]
    by_cases h3 : 3 < buf.length
    · right
      rw [if_pos h3]
      simp only
      rw [List.length_drop]
      omega
    · left
      rw [if_neg h3]
      exact ⟨rfl, rfl⟩
  | some idx =>
    by_cases hW : buf.length < idx + 30
    · rw [loopStep_wait buf idx hfind hW]
      exact Or.inl ⟨rfl, rfl⟩
    · by_cases hok : ((buf.drop idx).take 30).drop 28 = FTR
      · rw [loopStep_emit buf idx hfind (by omega) hok]
        right
        simp only
        rw [List.length_drop]
        omega
      · rw [loopStep_erase buf idx hfind (by omega) hok]
        right
        simp only
        rw [List.length_eraseIdx_of_lt (by omega)]
        omega

theorem drain_quiescent :
    ∀ (fuel : Nat) (buf : List Nat), buf.length ≤ fuel →
      loopStep (drain fuel buf).1 = (none, (drain fuel buf).1) := by
  intro fuel
  induction fuel with
  | zero =>
    intro buf hle
    have hnil : buf = [] := List.eq_nil_of_length_eq_zero (by omega)
    subst hnil
    simp [drain]
    rfl
  | succ fuel ih =>
    intro buf hle
    rcases loopStep_dec buf with ⟨ho, hb⟩ | hdec
    · have hq : loopStep buf = (none, buf) := by
        rw [Prod.ext_iff]
        exact ⟨ho, hb⟩
      rw [drain_succ_none fuel buf buf hq, if_pos rfl]
      exact hq
    · cases hls : loopStep buf with
      | mk o buf' =>
        rw [hls] at hdec
        simp only at hdec
        cases o with
        | none =>
          rw [drain_succ_none fuel buf buf' hls]
          rw [if_neg (fun h => absurd (h ▸ hdec) (lt_irrefl _))]
          exact ih buf' (by omega)
        | some b =>
          rw [drain_succ_some fuel buf b buf' hls]
          simp only
          exact ih buf' (by omega)

theorem quiescent_no_marker (s : List Nat) (q : Nat) (fm : List Nat)
    (hv : ValidFrame fm) (hfm : (s.drop q).take 30 = fm)
    (hgap : 30 ≤ s.length - q) (buf : List Nat)
    (hq : loopStep buf = (none, buf))
    (hmk : MarkerAt s q s.length buf) : False := by
  obtain ⟨k, hk, hsuf⟩ := hmk
  have hhdr := marker_hdr s q s.length fm buf k hfm hv.2.1 (by omega) hsuf
  have hsome := findHdr_isSome_of buf k hhdr
  cases hfind : findHdr buf with
  | none =>
    rw [hfind] at hsome
    simp at hsome
  | some idx =>
    have hmin := findHdr_min buf idx k hfind hhdr
    have hcomp : idx + 30 ≤ buf.length := by omega
    by_cases hok : ((buf.drop idx).take 30).drop 28 = FTR
    · have hemit := loopStep_emit buf idx hfind hcomp hok
      rw [hq] at hemit
      simp at hemit
    · have herase := loopStep_erase buf idx hfind hcomp hok
      rw [hq] at herase
      have hb : buf = buf.eraseIdx idx := congrArg Prod.snd herase
      have hlen := congrArg List.length hb
      rw [List.length_eraseIdx_of_lt (by omega)] at hlen
      omega

theorem quiescent_done (s : List Nat) (q1 : Nat) (f1 f2 : List Nat)
    (hv1 : ValidFrame f1) (hv2 : ValidFrame f2)
    (hfm1 : (s.drop q1).take 30 = f1)
    (hfm2 : (s.drop (q1 + 30)).take 30 = f2)
    (hslen : s.length = q1 + 60) (n : Nat) (buf : List Nat)
    (hq : loopStep buf = (none, buf))
    (hinv : LoopInv s q1 n buf s.length) : 2 ≤ n := by
  rcases hinv with h2 | ⟨hn1, hdB⟩ | ⟨hn1, hdC, hmk⟩ | hdD | ⟨hdE, hmk⟩
  · exact h2
  · omega
  · exact (quiescent_no_marker s (q1 + 30) f2 hv2 hfm2 (by omega) buf hq
      hmk).elim
  · omega
  · exact (quiescent_no_marker s q1 f1 hv1 hfm1 (by omega) buf hq hmk).elim

/-- A concrete valid frame: header magic, 24 zero payload bytes, footer
magic (an all-empty-slots report). -/
def zeroFrame : List Nat := HDR ++ List.replicate 24 0 ++ FTR

/-- **C5.**  For every byte stream consisting of arbitrary garbage followed
by two valid 30-byte frames, however the stream is split into successive
reads, the serial decoder loop emits at least 2 observation batches — never
fewer (but possibly more: the garbage may itself contain a valid frame, see
the counterexample to "exactly 2").  Moreover the resync mechanics are as
claimed: a full-length candidate at a header magic with a bad footer drops
exactly the one byte at the header index and keeps the rest of the buffer,
and a buffer with no header magic is trimmed to its last 3 bytes. -/
theorem claim_C5_resync (g f1 f2 : List Nat) (cs : List (List Nat))
    (hv1 : ValidFrame f1) (hv2 : ValidFrame f2)
    (hjoin : cs.flatten = g ++ (f1 ++ f2)) :
    2 ≤ totalBatches cs ∧
    (∀ buf idx, findHdr buf = some idx → idx + 30 ≤ buf.length →
        ((buf.drop idx).take 30).drop 28 ≠ FTR →
        loopStep buf = (none, buf.eraseIdx idx)) ∧
    (∀ buf, findHdr buf = none → 3 < buf.length →
        loopStep buf = (none, buf.drop (buf.length - 3))) := by
  refine ⟨?_, ?_, ?_⟩
  · have hfm1 : ((cs.flatten).drop g.length).take 30 = f1 := by
      rw [hjoin, List.drop_left,
        List.take_append_of_le_length (le_of_eq hv1.1.symm),
        List.take_of_length_le (le_of_eq hv1.1)]
    have hfm2 : ((cs.flatten).drop (g.length + 30)).take 30 = f2 := by
      have hd : (f1 ++ f2).drop 30 = f2 := by
        rw [← hv1.1, List.drop_left]
      rw [hjoin, ← List.drop_drop, List.drop_left, hd,
        List.take_of_length_le (le_of_eq hv2.1)]
    have hslen : (cs.flatten).length = g.length + 60 := by
      rw [hjoin, List.length_append, List.length_append, hv1.1, hv2.1]
    have hinv0 : LoopInv cs.flatten g.length 0 [] 0 :=
      Or.inr (Or.inr (Or.inr (Or.inl (Nat.zero_le _))))
    have hrc := runChunks_inv cs.flatten g.length f1 f2 hv1 hv2 hfm1 hfm2
      cs [] 0 0 (by rw [List.drop_zero]) (Nat.zero_le _) hinv0
    have hdr := drain_inv cs.flatten g.length f1 f2 hv1 hv2 hfm1 hfm2
      (runChunks cs []).1.length (runChunks cs []).1
      (0 + (runChunks cs []).2) hrc
    have hqq := drain_quiescent (runChunks cs []).1.length
      (runChunks cs []).1 (le_refl _)
    have h2 := quiescent_done cs.flatten g.length f1 f2 hv1 hv2 hfm1 hfm2
      hslen _ _ hqq hdr
    show 2 ≤ (runChunks cs []).2 +
      (drain (runChunks cs []).1.length (runChunks cs []).1).2
    omega
  · intro buf idx hfind hcomp hbad
    exact loopStep_erase buf idx hfind hcomp hbad
  · intro buf hfind h3
    rw [loopStep_none buf hfind, if_pos h3]

theorem claim_C5_resync_witness :
    ValidFrame zeroFrame ∧ 2 ≤ totalBatches [zeroFrame ++ zeroFrame] :=
  ⟨by decide, (claim_C5_resync [] zeroFrame zeroFrame
      [zeroFrame ++ zeroFrame] (by decide) (by decide) (by decide)).1⟩

/-- **C5, counterexample to "exactly 2".**  The garbage prefix may itself be
a valid frame: for the stream zeroFrame ++ zeroFrame ++ zeroFrame (garbage
:= the first zeroFrame, followed by two valid frames) delivered in a single
read, the loop emits 3 batches, not 2. -/
theorem claim_C5_cex :
    ValidFrame zeroFrame ∧
    totalBatches [zeroFrame ++ zeroFrame ++ zeroFrame] = 3 := by
  constructor
  · decide
  · decide
